import Mathlib

/-!
# Verification of the SRT batch-translation pipeline

A shallow embedding of `srt_translator.py`.  Strings are modelled as
`List Char`; Python string operations (`strip`, `split`, f-strings, `int()`)
are modelled by explicit functions below.  The HTTP client is modelled as an
oracle `Nat → Option (List Char)`: call number `n` either raises an exception
(`none`) or yields the text content extracted from the provider response
(`some raw`).  All definitions mirror the Python source; modelling choices
that are not literal transcriptions are recorded in the comments next to the
definitions concerned.
-/

set_option maxRecDepth 4000
set_option linter.unusedVariables false

/-- Python's default `str.strip` whitespace set, restricted to the ASCII
whitespace characters (the repository only ever produces these). -/
def pyIsSpace (c : Char) : Bool :=
  c = ' ' || c = '\t' || c = '\n' || c = '\r' || c = '\x0b' || c = '\x0c'

/-- Left part of Python `str.strip`. -/
def lstripWs (s : List Char) : List Char := s.dropWhile pyIsSpace

/-- Right part of Python `str.strip`. -/
def rstripWs (s : List Char) : List Char := (s.reverse.dropWhile pyIsSpace).reverse

/-- Python `s.strip()` with no arguments. -/
def pystrip (s : List Char) : List Char := rstripWs (lstripWs s)

/-- Python `s.split(c)` for a single-character separator: splits on every
occurrence, keeping empty pieces.  `splitOn1 c s` is never `[]`. -/
def splitOn1 (c : Char) : List Char → List (List Char)
  | [] => [[]]
  | a :: rest =>
    if a = c then [] :: splitOn1 c rest
    else
      match splitOn1 c rest with
      | h :: t => (a :: h) :: t
      | [] => [[a]]

/-- Python `s.split('\n')`. -/
def splitLines (s : List Char) : List (List Char) := splitOn1 '\n' s

/-- Python `'\n'.join(ls)`. -/
def joinLines : List (List Char) → List Char
  | [] => []
  | [l] => l
  | l :: ls => l ++ '\n' :: joinLines ls

/-- A line consisting purely of whitespace (this includes the empty line). -/
def wsOnly (l : List Char) : Bool := l.all pyIsSpace

/-- Python `str.split()` with no arguments: the maximal whitespace-free runs. -/
def pyWords : List Char → List (List Char)
  | [] => []
  | c :: rest =>
    if pyIsSpace c then pyWords rest
    else
      match rest with
      | [] => [[c]]
      | r :: _ =>
        if pyIsSpace r then [c] :: pyWords rest
        else
          match pyWords rest with
          | w :: ws => (c :: w) :: ws
          | [] => [[c]]

/-- `BatchTranslator.count_words`: `len(text.split())`. -/
def count_words (s : List Char) : Nat := (pyWords s).length

/-- The literal separator `' --> '` of the SRT time line. -/
def sepArrow : List Char := [' ', '-', '-', '>', ' ']

/-- Locate the first occurrence of `sep`: returns the part before it and the
part after it.  This is the engine behind Python `str.split(sep)`. -/
def findSep (sep : List Char) : List Char → Option (List Char × List Char)
  | [] => none
  | c :: rest =>
    if sep.isPrefixOf (c :: rest) then some ([], (c :: rest).drop sep.length)
    else
      match findSep sep rest with
      | some (a, b) => some (c :: a, b)
      | none => none

theorem findSep_shrinks (sep : List Char) (hs : sep ≠ []) (x : List Char) :
    ∀ a b, findSep sep x = some (a, b) → b.length < x.length := by
  induction x with
  | nil => intro a b h; simp [findSep] at h
  | cons c rest ih =>
    intro a b h
    have hsl : 1 ≤ sep.length := List.length_pos.mpr hs
    rw [findSep] at h
    by_cases hp : sep.isPrefixOf (c :: rest) = true
    · rw [if_pos hp] at h
      obtain ⟨ha, hb⟩ := Option.some.inj h |> Prod.mk.inj
      subst hb
      rw [List.length_drop]
      simp only [List.length_cons]
      omega
    · rw [if_neg hp] at h
      rcases hfs : findSep sep rest with _ | ⟨a', b'⟩
      · rw [hfs] at h; exact absurd h (by simp)
      · rw [hfs] at h
        obtain ⟨ha, hb⟩ := Option.some.inj h |> Prod.mk.inj
        subst hb
        have := ih a' b' hfs
        simp only [List.length_cons]
        omega

/-- The splitting loop behind `str.split(' --> ')`, by structural recursion
on a fuel bound so that it evaluates inside the kernel; every located
occurrence consumes at least one character, so fuel `x.length + 1` always
suffices (`splitArrowGo_congr` below). -/
def splitArrowGo : Nat → List Char → List (List Char)
  | 0, x => [x]
  | fuel + 1, x =>
    match findSep sepArrow x with
    | none => [x]
    | some (a, b) => a :: splitArrowGo fuel b

/-- Python `time_line.split(' --> ')`: split on every (non-overlapping,
leftmost-first) occurrence of `' --> '`. -/
def splitArrow (x : List Char) : List (List Char) := splitArrowGo (x.length + 1) x

theorem splitArrowGo_congr : ∀ (fuel fuel2 : Nat) (x : List Char),
    x.length < fuel → x.length < fuel2 → splitArrowGo fuel x = splitArrowGo fuel2 x := by
  intro fuel
  induction fuel with
  | zero => intro fuel2 x h; omega
  | succ fuel ih =>
    intro fuel2 x h h2
    cases fuel2 with
    | zero => omega
    | succ fuel2 =>
      rw [splitArrowGo, splitArrowGo]
      cases hf : findSep sepArrow x with
      | none => rfl
      | some ab =>
        obtain ⟨a, b⟩ := ab
        have hb := findSep_shrinks sepArrow (by decide) x a b hf
        change a :: splitArrowGo fuel b = a :: splitArrowGo fuel2 b
        rw [ih fuel2 b (by omega) (by omega)]

theorem splitArrow_eq (x : List Char) :
    splitArrow x =
      match findSep sepArrow x with
      | none => [x]
      | some (a, b) => a :: splitArrow b := by
  unfold splitArrow
  rw [splitArrowGo]
  cases hf : findSep sepArrow x with
  | none => rfl
  | some ab =>
    obtain ⟨a, b⟩ := ab
    have hb := findSep_shrinks sepArrow (by decide) x a b hf
    change a :: splitArrowGo x.length b = a :: splitArrowGo (b.length + 1) b
    rw [splitArrowGo_congr x.length (b.length + 1) b (by omega) (by omega)]

/-- Decimal digit to character. -/
def digitCh (d : Nat) : Char := Char.ofNat (48 + d)

/-- Character to decimal digit value. -/
def chDigit (c : Char) : Nat := c.toNat - 48

/-- Value of a non-empty all-digit string (big-endian). -/
def digitsVal (ds : List Char) : Option Nat :=
  if ds ≠ [] ∧ ds.all Char.isDigit then
    some (Nat.ofDigits 10 ((ds.map chDigit).reverse))
  else none

/-- Python `int(s)` on a string: optional surrounding whitespace, an optional
sign, then decimal digits.  (Python additionally accepts underscore digit
grouping and non-ASCII decimal digits; the repository never produces those, and
accepting them would only enlarge the set of parsed blocks.) -/
def pyInt (s : List Char) : Option Int :=
  match pystrip s with
  | '-' :: ds => (digitsVal ds).map (fun v => -(v : Int))
  | '+' :: ds => (digitsVal ds).map (fun v => (v : Int))
  | ds => (digitsVal ds).map (fun v => (v : Int))

/-- Little-endian decimal digits, by structural recursion on a fuel bound (so
that it evaluates inside the kernel); fuel `n` always suffices. -/
def digitsGo : Nat → Nat → List Nat
  | 0, _ => []
  | fuel + 1, n => if n = 0 then [] else n % 10 :: digitsGo fuel (n / 10)

/-- Little-endian decimal digits of `n`. -/
def natDigits (n : Nat) : List Nat := digitsGo n n

/-- Python `str(n)` for an `int`. -/
def natToStr (n : Nat) : List Char :=
  if n = 0 then ['0'] else ((natDigits n).map digitCh).reverse

/-- Python `str(n)`/`f"{n}"` for an `int`, including the sign. -/
def intToStr (n : Int) : List Char :=
  if n < 0 then '-' :: natToStr n.natAbs else natToStr n.natAbs

/-- `SRTEntry.__init__`: the constructor strips the text and initialises
`translated_text` to the empty string. -/
structure SRTEntry where
  index : Int
  start_time : List Char
  end_time : List Char
  text : List Char
  translated_text : List Char
  deriving DecidableEq, Repr

/-- `SRTEntry(index, start_time, end_time, text)`. -/
def mkEntry (index : Int) (start_time end_time text : List Char) : SRTEntry :=
  { index := index, start_time := start_time, end_time := end_time,
    text := pystrip text, translated_text := [] }

/-- Body of the `for block in blocks` loop of `SRTParser.parse_srt`, for one
block given as its list of lines: `lines = block.strip().split('\n')`, at least
three lines, `int(lines[0])`, and a time line that splits on `' --> '` into
exactly two parts (more parts raise `ValueError: too many values to unpack`,
which is caught and skips the block; fewer mean the separator is absent and the
block is silently skipped as well). -/
def parseBlock (g : List (List Char)) : Option SRTEntry :=
  match splitLines (pystrip (joinLines g)) with
  | l0 :: l1 :: l2 :: rest =>
    match pyInt l0 with
    | none => none
    | some idx =>
      match splitArrow l1 with
      | [st, en] => some (mkEntry idx (pystrip st) (pystrip en) (joinLines (l2 :: rest)))
      | _ => none
  | _ => none

/-- The blocks of `re.split(r'\n\s*\n', content.strip())`, with the blocks that
strip to nothing dropped (the `if not block.strip(): continue` line).  On a
stripped string this regex split is exactly the grouping of the maximal runs of
lines that are not whitespace-only: the regex consumes a newline, a greedy
whitespace run, and a final newline, i.e. precisely the maximal interior chains
of whitespace-only lines.  We model it at the line level. -/
def groupBlocks : List (List Char) → List (List (List Char))
  | [] => []
  | l :: rest =>
    if wsOnly l then groupBlocks rest
    else
      match rest with
      | [] => [[l]]
      | r :: _ =>
        if wsOnly r then [l] :: groupBlocks rest
        else
          match groupBlocks rest with
          | g :: gs => (l :: g) :: gs
          | [] => [[l]]

/-- `SRTParser.parse_srt`. -/
def parse_srt (content : List Char) : List SRTEntry :=
  (groupBlocks (splitLines (pystrip content))).filterMap parseBlock

/-- The text chosen for output:
`entry.translated_text if entry.translated_text else entry.text`. -/
def entryOut (e : SRTEntry) : List Char :=
  if e.translated_text = [] then e.text else e.translated_text

/-- One item of the `result` list of `SRTParser.entries_to_srt`:
`f"{entry.index}\n{entry.start_time} --> {entry.end_time}\n{text}\n"`. -/
def serializeEntry (e : SRTEntry) : List Char :=
  joinLines [intToStr e.index, e.start_time ++ sepArrow ++ e.end_time, entryOut e] ++ ['\n']

/-- `SRTParser.entries_to_srt`: `'\n'.join(result)`. -/
def entries_to_srt (es : List SRTEntry) : List Char :=
  joinLines (es.map serializeEntry)

/-- The HTTP client as seen by the translator: call number `n` either raises
an exception (`none`) or yields the text content extracted from the provider
response (`some raw`).  Prompts do not influence this model; successive calls
use successive slots. -/
def Oracle : Type := Nat → Option (List Char)

/-- `APITranslator.translate_text` at call slot `n`: every provider branch
returns the extracted content `.strip()`-ped; any transport/HTTP/JSON failure
raises, modelled by `none`. -/
def translate_text (o : Oracle) (n : Nat) : Option (List Char) :=
  (o n).map pystrip

/-- Fuel-bounded binary logarithm (structural, so that it evaluates inside the
kernel); with fuel 128 it equals the floor base-2 logarithm for every
`n < 2 ^ 128`, which covers all products formed below. -/
def log2Go : Nat → Nat → Nat
  | 0, _ => 0
  | fuel + 1, n => if n < 2 then 0 else log2Go fuel (n / 2) + 1

/-- Floor base-2 logarithm for `n < 2 ^ 128`. -/
def log2b (n : Nat) : Nat := log2Go 128 n

/-- Round a positive integer to 53 significant bits, ties to even: the IEEE
binary64 rounding applied to an exact integer product. -/
def rne53 (n : Nat) : Nat :=
  if n < 2 ^ 53 then n
  else
    let s := log2b n - 52
    let q := n / 2 ^ s
    let r := n % 2 ^ s
    let q2 :=
      if r < 2 ^ (s - 1) then q
      else if 2 ^ (s - 1) < r then q + 1
      else if q % 2 = 0 then q else q + 1
    q2 * 2 ^ s

/-- The binary64 double nearest to `1.3` is exactly `fl13sig / 2 ^ 52`. -/
def fl13sig : Nat := 5854679515581645

/-- Python `int(e * 1.3)` for a nonnegative int `e` small enough to convert to
float exactly: the product `e * fl(1.3)` is rounded to nearest-even and `int`
truncates towards zero. -/
def pyIntMul13 (e : Nat) : Nat := rne53 (e * fl13sig) / 2 ^ 52

/-- `APITranslator.calculate_max_tokens`.  `int(input_word_count * 1.5)` is
exact binary64 arithmetic for every `w < 2 ^ 51`, giving `3 * w / 2` with
truncating division; the 30% buffer multiplies by the double `1.3` and
truncates; the result is clamped to `[200, 4000]`. -/
def calculate_max_tokens (input_word_count : Nat) : Nat :=
  max 200 (min (pyIntMul13 (3 * input_word_count / 2)) 4000)

/-- The loop of `BatchTranslator.create_batches`: `cur` is `current_batch`,
`cnt` is `current_word_count`. -/
def createBatchesGo (mw : Nat) : List SRTEntry → List SRTEntry → Nat → List (List SRTEntry)
  | [], cur, _ => if cur = [] then [] else [cur]
  | e :: rest, cur, cnt =>
    let w := count_words e.text
    if mw < cnt + w ∧ cur ≠ [] then
      cur :: createBatchesGo mw rest [e] w
    else
      createBatchesGo mw rest (cur ++ [e]) (cnt + w)

/-- `BatchTranslator.create_batches`. -/
def create_batches (entries : List SRTEntry) (max_words : Nat) : List (List SRTEntry) :=
  createBatchesGo max_words entries [] 0

/-- The collecting loop of `get_context`: grab translated entries while fewer
than 5 have been collected. -/
def collectCtx : List SRTEntry → Nat → List (List Char)
  | [], _ => []
  | e :: rest, cnt =>
    if e.translated_text ≠ [] ∧ cnt < 5 then
      e.translated_text :: collectCtx rest (cnt + 1)
    else collectCtx rest cnt

/-- `" ".join(context_entries[-5:]) if context_entries else ""`. -/
def ctxFinish (ctx : List (List Char)) : List Char :=
  if ctx = [] then [] else List.intercalate [' '] (ctx.drop (ctx.length - 5))

/-- `BatchTranslator.get_context`: scan entries `max(0, start-10) .. start-1`
in document order, collect up to 5 translated ones, join the last 5 of those
with spaces (empty string when none collected). -/
def get_context (all_entries : List SRTEntry) (current_start_idx : Nat) : List Char :=
  ctxFinish (collectCtx ((all_entries.take current_start_idx).drop (current_start_idx - 10)) 0)

/-- A line that `startswith('[')` and has `']' in` it. -/
def isMarkerLine (l : List Char) : Bool :=
  (match l with | '[' :: _ => true | _ => false) && l.contains ']'

/-- `line.split(']', 1)[1]`: everything after the first `']'`. -/
def afterBracket (l : List Char) : List Char := (l.dropWhile (fun c => c ≠ ']')).tail

/-- The accumulator loop of the primary parse inside `translate_batch`:
`cur` is `current_translation` (`[]` is Python-falsy, i.e. no open unit). -/
def primaryGo : List (List Char) → List Char → List (List Char)
  | [], cur => if cur = [] then [] else [pystrip cur]
  | l :: rest, cur =>
    if pystrip l = [] then primaryGo rest cur
    else if isMarkerLine (pystrip l) then
      if cur = [] then primaryGo rest (pystrip (afterBracket (pystrip l)))
      else pystrip cur :: primaryGo rest (pystrip (afterBracket (pystrip l)))
    else primaryGo rest (if cur = [] then pystrip l else cur ++ ' ' :: pystrip l)

/-- Primary parse of the raw batch response. -/
def primaryParse (translated : List Char) : List (List Char) :=
  primaryGo (splitLines translated) []

/-- The fallback parse of `translate_batch`: every non-empty stripped line is
its own unit, with a leading `[...]` marker removed. -/
def altParse (translated : List Char) : List (List Char) :=
  (((splitLines translated).map pystrip).filter (fun l => l ≠ [])).map
    (fun l => if isMarkerLine l then pystrip (afterBracket l) else l)

/-- The failure sentinel `f"[翻譯失敗] {text}"`. -/
def failSent (text : List Char) : List Char := "[翻譯失敗] ".data ++ text

/-- The sentinel prefix `"[翻譯失敗]"` (no trailing space), as tested by
`translation.startswith("[翻譯失敗]")`. -/
def sentPrefix : List Char := "[翻譯失敗]".data

/-- `s.startswith(p)`. -/
def pyStartsWith (p s : List Char) : Bool := decide (s.take p.length = p)

/-- Whether an assigned translation counts as a success:
`if translation and not translation.startswith("[翻譯失敗]")`. -/
def goodT (t : List Char) : Bool := !t.isEmpty && !pyStartsWith sentPrefix t

/-- The safety-net padding and truncation at the end of `translate_batch`:
pad with sentinels up to the batch size, then cut to the batch size. -/
def padTrunc (ts : List (List Char)) (batch : List SRTEntry) : List (List Char) :=
  (ts ++ (batch.drop ts.length).map (fun e => failSent e.text)).take batch.length

/-- `BatchTranslator.translate_individually`: one client call per entry; a
failing call yields the sentinel for that entry and the loop continues with
the next entry.  Returns the results and the next free call slot. -/
def translate_individually (o : Oracle) : Nat → List SRTEntry → List Char → List (List Char) × Nat
  | n, [], _ => ([], n)
  | n, e :: rest, ctx =>
    ((match translate_text o n with
      | some translated => pystrip translated
      | none => failSent e.text) :: (translate_individually o (n + 1) rest ctx).1,
     (translate_individually o (n + 1) rest ctx).2)

/-- `BatchTranslator.translate_batch`: one batched client call, primary parse,
fallback line parse when the count mismatches, then per-entry translation when
both parses mismatch or the call raises. -/
def translate_batch (o : Oracle) (n : Nat) (batch : List SRTEntry) (ctx : List Char) :
    List (List Char) × Nat :=
  match translate_text o n with
  | none => translate_individually o (n + 1) batch ctx
  | some translated =>
    if (primaryParse translated).length = batch.length then
      (padTrunc (primaryParse translated) batch, n + 1)
    else if (altParse translated).length = batch.length then
      (padTrunc (altParse translated) batch, n + 1)
    else translate_individually o (n + 1) batch ctx

/-- The per-file statistics record built by `translate_single_file`. -/
structure FileStats where
  success : Nat
  failed : Nat
  failed_indices : List Nat
  deriving DecidableEq, Repr

/-- The statistics update of the `for entry, translation in zip(...)` loop;
`i` is the running `entry_idx`. -/
def accountGo : List (List Char) → Nat → FileStats → FileStats
  | [], _, st => st
  | t :: ts, i, st =>
    if goodT t then
      accountGo ts (i + 1) { st with success := st.success + 1 }
    else
      accountGo ts (i + 1)
        { st with failed := st.failed + 1, failed_indices := st.failed_indices ++ [i] }

/-- `entry.translated_text = translation` over `zip(batch, translations)`:
assignment stops at the shorter list. -/
def assignZip : List SRTEntry → List (List Char) → List SRTEntry
  | es, [] => es
  | [], _ => []
  | e :: es, t :: ts => { e with translated_text := t } :: assignZip es ts

/-- Assign a batch's translations onto the entries starting at position
`idx` of the full entry list. -/
def updateRange (es : List SRTEntry) (idx : Nat) (ts : List (List Char)) : List SRTEntry :=
  es.take idx ++ assignZip (es.drop idx) ts

/-- The batch loop of `translate_single_file`: per batch, compute the context,
translate, assign the zipped results, and update the statistics; `idx` is the
running `entry_idx`, `n` the next free call slot. -/
def passGo (o : Oracle) :
    List (List SRTEntry) → List SRTEntry → Nat → Nat → FileStats →
      List SRTEntry × FileStats × Nat
  | [], es, n, _, st => (es, st, n)
  | b :: bs, es, n, idx, st =>
    let ctx := get_context es idx
    let p := translate_batch o n b ctx
    let ts := p.1.take b.length
    let es2 := updateRange es idx ts
    let st2 := accountGo ts idx st
    passGo o bs es2 p.2 (idx + ts.length) st2

/-- The batch pass of `SRTTranslatorGUI.translate_single_file` (the word-count
clamping of the GUI field and the file output around the pass are outside the
model; `max_words` is the already-clamped value). -/
def translate_single_file (o : Oracle) (n : Nat) (entries : List SRTEntry) (max_words : Nat) :
    List SRTEntry × FileStats × Nat :=
  passGo o (create_batches entries max_words) entries n 0
    { success := 0, failed := 0, failed_indices := [] }

/-- File status as displayed and stored in `file_info['status']`. -/
inductive FileStatus where
  | pending
  | inProgress
  | done
  | partiallyFailed
  | failed
  deriving DecidableEq, Repr

/-- The mutable state of the `for idx in failed_indices` loop of
`retry_failed_worker`. -/
structure RetryState where
  entries : List SRTEntry
  counter : Nat
  retry_success : Nat
  retry_failed : Nat
  new_failed_indices : List Nat
  deriving DecidableEq, Repr

/-- The `for idx in failed_indices` loop of `retry_failed_worker`: indices out
of range are skipped silently; a successful call stores the stripped
translation; a raising call stores the sentinel; failures are recorded in
`new_failed_indices`. -/
def retryGo (o : Oracle) : List Nat → RetryState → RetryState
  | [], st => st
  | idx :: rest, st =>
    if h : idx < st.entries.length then
      let e := st.entries.get ⟨idx, h⟩
      match translate_text o st.counter with
      | some translation =>
        let es2 := st.entries.set idx { e with translated_text := pystrip translation }
        if goodT translation then
          retryGo o rest { st with entries := es2, counter := st.counter + 1,
                                   retry_success := st.retry_success + 1 }
        else
          retryGo o rest { st with entries := es2, counter := st.counter + 1,
                                   retry_failed := st.retry_failed + 1,
                                   new_failed_indices := st.new_failed_indices ++ [idx] }
      | none =>
        let es2 := st.entries.set idx { e with translated_text := failSent e.text }
        retryGo o rest { st with entries := es2, counter := st.counter + 1,
                                 retry_failed := st.retry_failed + 1,
                                 new_failed_indices := st.new_failed_indices ++ [idx] }
    else retryGo o rest st

/-- The outcome of `retry_failed_worker` on one file. -/
structure RetryResult where
  entries : List SRTEntry
  success : Nat
  failed : Nat
  failed_indices : List Nat
  status : FileStatus
  counter : Nat
  deriving DecidableEq, Repr

/-- `SRTTranslatorGUI.retry_failed_worker` on one file: run the retry loop on
the recorded failed indices, add the retry successes to the success count,
subtract them from the failure count (the Python `int` subtraction never goes
negative here, so `Nat` subtraction is exact), store the remaining failed
indices, and set the status to done exactly when none remain (otherwise the
stored status is left unchanged).  GUI updates and file output are outside the
model. -/
def retry_failed_worker (o : Oracle) (n : Nat) (entries : List SRTEntry)
    (failed_indices : List Nat) (success failed : Nat) (status : FileStatus) : RetryResult :=
  let r := retryGo o failed_indices
    { entries := entries, counter := n, retry_success := 0, retry_failed := 0,
      new_failed_indices := [] }
  { entries := r.entries,
    success := success + r.retry_success,
    failed := failed - r.retry_success,
    failed_indices := r.new_failed_indices,
    status := if r.new_failed_indices = [] then FileStatus.done else status,
    counter := r.counter }

/-- The stripped non-empty lines of a response: the lines the parsing loops
actually act on. -/
def cleanLinesL (ls : List (List Char)) : List (List Char) :=
  (ls.map pystrip).filter (fun l => l ≠ [])

/-- The stripped non-empty lines of a raw response string. -/
def cleanLines (raw : List Char) : List (List Char) := cleanLinesL (splitLines raw)

/-- The accumulation of one marker group: start from the marker tail, then
append each continuation line with a space (a continuation replaces an empty
open unit without a space). -/
def unitFold (t : List Char) (cs : List (List Char)) : List Char :=
  cs.foldl (fun acc c => if acc = [] then c else acc ++ ' ' :: c) t

/-- The raw accumulated unit of one marker group `marker :: continuations`. -/
def unitRawOf (g : List (List Char)) : List Char :=
  unitFold (pystrip (afterBracket g.headI)) g.tail

/-- The flushed unit of one marker group. -/
def unitOf (g : List (List Char)) : List Char := pystrip (unitRawOf g)

/-- Oracle used by witnesses of the fallback path: the batch call (slot 0) and
the first individual call (slot 1) raise; the later calls succeed. -/
def demoOracleC5 : Oracle := fun n => if n ≤ 1 then none else some ("好的".data)

/-! ### Specification-side definitions and demonstration data -/

/-- The four characters `" -->"`: a start time ending in them merges with the
serialized separator and shifts the reparse. -/
def arrTail : List Char := [' ', '-', '-', '>']

/-- The lines of one serialized entry. -/
def eLines (e : SRTEntry) : List (List Char) :=
  intToStr e.index :: (e.start_time ++ sepArrow ++ e.end_time) :: splitLines e.text

/-- The line list of a serialized document: entry lines separated by single
blank lines. -/
def goodLines : List SRTEntry → List (List Char)
  | [] => []
  | [e] => eLines e
  | e :: es => eLines e ++ [[]] ++ goodLines es

/-- Strip the leading whitespace of the first line of a block. -/
def stripFirst : List (List Char) → List (List Char)
  | [] => []
  | l :: ls => lstripWs l :: ls

/-- Strip the trailing whitespace of the last line of a block. -/
def stripLast : List (List Char) → List (List Char)
  | [] => []
  | [l] => [rstripWs l]
  | l :: ls => l :: stripLast ls

/-- `' --> '` occurs nowhere in `s`. -/
def NoArrowIn (s : List Char) : Prop := ∀ a b, s ≠ a ++ sepArrow ++ b

/-- The shape of every entry produced by `parse_srt`: no translation, a
stripped non-empty text without whitespace-only lines, and stripped,
newline-free time codes in which the separator does not occur. -/
def GoodEntry (e : SRTEntry) : Prop :=
  e.translated_text = [] ∧
  pystrip e.text = e.text ∧ e.text ≠ [] ∧
  (∀ l ∈ splitLines e.text, wsOnly l = false) ∧
  pystrip e.start_time = e.start_time ∧ '\n' ∉ e.start_time ∧ NoArrowIn e.start_time ∧
  pystrip e.end_time = e.end_time ∧ '\n' ∉ e.end_time ∧ NoArrowIn e.end_time

/-- The round-trip counterexample content: a tab lets the parser accept a
start time that ends in `" -->"`. -/
def ceContent : List Char := "1\nx  -->\t --> e\nt".data

/-- A well-formed two-entry SRT document used to exercise the round trip. -/
def demoSRT : List Char :=
  ("1\n00:00:01,000 --> 00:00:02,500\nHello there\n\n2\n00:00:03,000 --> 00:00:04,000\nWorld".data)

/-- A block whose (stripped) second line splits on `' --> '` into three or
more parts, i.e. contains the separator more than once: tuple unpacking of the
split raises `ValueError` on such a block. -/
def badTimeBlock (g : List (List Char)) : Bool :=
  match splitLines (pystrip (joinLines g)) with
  | _ :: l1 :: _ => decide (3 ≤ (splitArrow l1).length)
  | _ => false

/-- Oracle whose calls all succeed. -/
def demoOracleGood : Oracle := fun _ => some ("好".data)

/-- The text stored for a retried entry, given its client call's outcome. -/
def retryText (r : Option (List Char)) (e : SRTEntry) : List Char :=
  match r with
  | some raw => pystrip (pystrip raw)
  | none => failSent e.text

/-- Whether a retried entry's call counts as a success (non-empty stripped
translation that does not start with the sentinel prefix). -/
def retryOk (r : Option (List Char)) : Bool :=
  match r with
  | some raw => goodT (pystrip raw)
  | none => false

/-- The positions (running `entry_idx` values) that the statistics loop
records as failed for a translation list starting at position `i`. -/
def badIdx : List (List Char) → Nat → List Nat
  | [], _ => []
  | t :: ts, i => if goodT t then badIdx ts (i + 1) else i :: badIdx ts (i + 1)

/-- The immutable part of an entry: everything except `translated_text`. -/
def sameCore (a b : SRTEntry) : Prop :=
  a.index = b.index ∧ a.start_time = b.start_time ∧
  a.end_time = b.end_time ∧ a.text = b.text

/-- Oracle whose response `"[1]"` makes the fallback line parse produce an
empty unit. -/
def oracleBad : Oracle := fun _ => some ("[1]".data)

/-- Demonstration entries used by witnesses: an over-budget entry followed by
two small ones. -/
def demoEntries : List SRTEntry :=
  [mkEntry 1 ("00:00:00,100".data) ("00:00:01,200".data) ("one two three four".data),
   mkEntry 2 ("00:00:01,300".data) ("00:00:02,400".data) ("hi".data),
   mkEntry 3 ("00:00:02,500".data) ("00:00:03,600".data) ("x y".data)]

/-- Round-half-up rounding of the rational `a / b`. -/
def roundHalfUp (a b : Nat) : Nat := (2 * a + b) / (2 * b)

/-- The token-budget formula exactly as the claim words it:
`clamp(round(round(w * 1.5) * 1.3), 200, 4000)` with mathematical rounding. -/
def specMaxTokens (w : Nat) : Nat :=
  max 200 (min (roundHalfUp (13 * roundHalfUp (3 * w) 2) 10) 4000)

/-- Python truthiness of `entry.translated_text`. -/
def isTranslated (e : SRTEntry) : Bool := decide (e.translated_text ≠ [])

/-- The context computation as amended: the space-join of the *first* up-to-5
translated entries among the 10 entries immediately preceding the batch start,
scanned in document order. -/
def contextSpec (all_entries : List SRTEntry) (start : Nat) : List Char :=
  List.intercalate [' ']
    (((((all_entries.take start).drop (start - 10)).filter
        isTranslated).map SRTEntry.translated_text).take 5)

/-- The context as the claim words it: the space-join of the up-to-5 *most
recently* translated entries preceding the batch start (the last translated
ones of the reachable window, in document order). -/
def claimContext (all_entries : List SRTEntry) (start : Nat) : List Char :=
  let ts := (((all_entries.take start).drop (start - 10)).filter
    isTranslated).map SRTEntry.translated_text
  List.intercalate [' '] (ts.drop (ts.length - 5))

/-- Ten entries, all translated `t0 … t9`. -/
def ctxDemoEntries : List SRTEntry :=
  (List.range 10).map (fun (i : Nat) =>
    { index := Int.ofNat i, start_time := "s".data, end_time := "e".data,
      text := "w".data, translated_text := 't' :: natToStr i })

/-! ## C2: `create_batches` -/

theorem createBatchesGo_join (mw : Nat) :
    ∀ (l cur : List SRTEntry) (cnt : Nat), (createBatchesGo mw l cur cnt).flatten = cur ++ l := by
  intro l
  induction l with
  | nil =>
    intro cur cnt
    by_cases h : cur = [] <;> simp [createBatchesGo, h]
  | cons e rest ih =>
    intro cur cnt
    simp only [createBatchesGo]
    split_ifs with h
    · simp [ih]
    · simp [ih]

theorem createBatchesGo_ne (mw : Nat) :
    ∀ (l cur : List SRTEntry) (cnt : Nat) (b : List SRTEntry),
      b ∈ createBatchesGo mw l cur cnt → b ≠ [] := by
  intro l
  induction l with
  | nil =>
    intro cur cnt b hb
    rw [createBatchesGo] at hb
    split_ifs at hb with h
    · simp at hb
    · simp at hb; subst hb; exact h
  | cons e rest ih =>
    intro cur cnt b hb
    simp only [createBatchesGo] at hb
    split_ifs at hb with h
    · rcases List.mem_cons.mp hb with rfl | hb2
      · exact h.2
      · exact ih _ _ _ hb2
    · exact ih _ _ _ hb

theorem createBatchesGo_tail (mw : Nat) :
    ∀ (l cur : List SRTEntry) (cnt : Nat),
      (∀ e ∈ cur.drop 1, count_words e.text ≤ mw) →
      ∀ b ∈ createBatchesGo mw l cur cnt, ∀ e ∈ b.drop 1, count_words e.text ≤ mw := by
  intro l
  induction l with
  | nil =>
    intro cur cnt hcur b hb
    rw [createBatchesGo] at hb
    split_ifs at hb with h
    · simp at hb
    · simp at hb; subst hb; exact hcur
  | cons e rest ih =>
    intro cur cnt hcur b hb
    simp only [createBatchesGo] at hb
    split_ifs at hb with h
    · rcases List.mem_cons.mp hb with rfl | hb2
      · exact hcur
      · exact ih [e] _ (by simp) b hb2
    · refine ih (cur ++ [e]) _ ?_ b hb
      intro x hx
      rcases cur with _ | ⟨c, curt⟩
      · simp at hx
      · have hle : cnt + count_words e.text ≤ mw := by
          rcases not_and_or.mp h with h1 | h2
          · omega
          · simp at h2
        have hx2 : x ∈ curt ++ [e] := by simpa using hx
        rcases List.mem_append.mp hx2 with hx3 | hx3
        · exact hcur x (by simpa using hx3)
        · have : x = e := by simpa using hx3
          subst this
          omega

/-- C2: for every entry sequence and every `maxWords ≥ 1`, `create_batches`
returns batches whose in-order concatenation is the input, none of which is
empty, and in which only the first entry of a batch can individually exceed
`maxWords` (an over-budget entry is never split). -/
theorem create_batches_correct (entries : List SRTEntry) (max_words : Nat)
    (hmw : 1 ≤ max_words) :
    (create_batches entries max_words).flatten = entries ∧
    (∀ b ∈ create_batches entries max_words, b ≠ []) ∧
    (∀ b ∈ create_batches entries max_words, ∀ e ∈ b.drop 1,
      count_words e.text ≤ max_words) :=
  ⟨by simpa using createBatchesGo_join max_words entries [] 0,
   fun b hb => createBatchesGo_ne max_words entries [] 0 b hb,
   fun b hb => createBatchesGo_tail max_words entries [] 0 (by simp) b hb⟩

/-- Witness for C2 at a concrete input. -/
theorem create_batches_correct_witness :
    1 ≤ 3 ∧
    ((create_batches demoEntries 3).flatten = demoEntries ∧
     (∀ b ∈ create_batches demoEntries 3, b ≠ []) ∧
     (∀ b ∈ create_batches demoEntries 3, ∀ e ∈ b.drop 1,
       count_words e.text ≤ 3)) :=
  ⟨by decide, create_batches_correct demoEntries 3 (by decide)⟩

/-! ## C7: `calculate_max_tokens` -/

/-- C7 counterexample: at `w = 208` the code computes
`int(int(208 * 1.5) * 1.3) = int(312 * 1.3) = 405` (the binary64 product is
`405.6000000000000142…` and `int` truncates), while the claimed formula
`clamp(round(round(w * 1.5) * 1.3), 200, 4000)` yields `406`. -/
theorem calculate_max_tokens_ne_spec :
    calculate_max_tokens 208 = 405 ∧ specMaxTokens 208 = 406 ∧
    calculate_max_tokens 208 ≠ specMaxTokens 208 := by
  refine ⟨by decide, by decide, by decide⟩

/-- C7 amended: the code truncates (`int(...)`) instead of rounding, so the
budget is `clamp(int(int(w * 1.5) * 1.3), 200, 4000)` in binary64 arithmetic;
in particular the budget sent to the API always lies in `[200, 4000]`. -/
theorem calculate_max_tokens_bounds (w : Nat) (hw : w ≤ 2 ^ 50) :
    200 ≤ calculate_max_tokens w ∧ calculate_max_tokens w ≤ 4000 := by
  unfold calculate_max_tokens
  omega

/-- Witness for C7 at a concrete input. -/
theorem calculate_max_tokens_bounds_witness :
    300 ≤ 2 ^ 50 ∧ (200 ≤ calculate_max_tokens 300 ∧ calculate_max_tokens 300 ≤ 4000) :=
  ⟨by norm_num, calculate_max_tokens_bounds 300 (by norm_num)⟩

/-! ## C8: `get_context` -/

theorem collectCtx_eq (l : List SRTEntry) :
    ∀ cnt, collectCtx l cnt =
      ((l.filter isTranslated).map SRTEntry.translated_text).take (5 - cnt) := by
  induction l with
  | nil => intro cnt; simp [collectCtx]
  | cons e rest ih =>
    intro cnt
    rw [collectCtx]
    by_cases ht : e.translated_text = []
    · rw [if_neg (by simp [ht])]
      simp [List.filter_cons, isTranslated, ht, ih]
    · by_cases hc : cnt < 5
      · rw [if_pos ⟨ht, hc⟩]
        rw [ih]
        have h5 : 5 - cnt = (5 - (cnt + 1)) + 1 := by omega
        simp [List.filter_cons, isTranslated, ht, h5]
      · rw [if_neg (by rintro ⟨h1, h2⟩; omega)]
        rw [ih]
        have h5 : 5 - cnt = 0 := by omega
        simp [List.filter_cons, isTranslated, ht, h5, Nat.sub_eq_zero_of_le (by omega : 5 ≤ cnt)]

/-- C8 amended: `get_context` returns the space-join of the *first* up-to-5
translated entries among the 10 immediately preceding the batch start, in
document order (empty when none of them is translated). -/
theorem get_context_eq_spec (all_entries : List SRTEntry) (start : Nat)
    (hs : start ≤ all_entries.length) :
    get_context all_entries start = contextSpec all_entries start := by
  unfold get_context contextSpec ctxFinish
  rw [collectCtx_eq, Nat.sub_zero]
  set m := ((((all_entries.take start).drop (start - 10)).filter
    isTranslated).map SRTEntry.translated_text).take 5 with hm
  have hlen : m.length ≤ 5 := by rw [hm]; simp
  have hz : m.length - 5 = 0 := by omega
  by_cases h : m = []
  · rw [if_pos h, h]
    simp [List.intercalate]
  · rw [if_neg h, hz, List.drop_zero]

/-- C8 counterexample: with ten translated predecessors the code joins the
*first* five of the window (`t0 … t4`), not the most recent five (`t5 … t9`). -/
theorem get_context_ne_claim :
    get_context ctxDemoEntries 10 = "t0 t1 t2 t3 t4".data ∧
    claimContext ctxDemoEntries 10 = "t5 t6 t7 t8 t9".data ∧
    get_context ctxDemoEntries 10 ≠ claimContext ctxDemoEntries 10 := by
  refine ⟨by decide, by decide, by decide⟩

/-- Witness for C8 at a concrete input. -/
theorem get_context_eq_spec_witness :
    2 ≤ demoEntries.length ∧ get_context demoEntries 2 = contextSpec demoEntries 2 :=
  ⟨by decide, get_context_eq_spec demoEntries 2 (by decide)⟩

/-! ## Properties of `pystrip` -/

theorem dropWhile_head_not (p : Char → Bool) (s : List Char) :
    ∀ c, (s.dropWhile p).head? = some c → p c = false := by
  induction s with
  | nil => intro c h; simp at h
  | cons a s ih =>
    intro c h
    by_cases ha : p a
    · simp only [List.dropWhile_cons, if_pos ha] at h
      exact ih c h
    · simp only [List.dropWhile_cons, if_neg ha] at h
      simp at h
      subst h
      simpa using ha

theorem dropWhile_eq_self (p : Char → Bool) (s : List Char)
    (h : ∀ c, s.head? = some c → p c = false) : s.dropWhile p = s := by
  cases s with
  | nil => rfl
  | cons a s =>
    have := h a (by simp)
    simp [List.dropWhile_cons, this]

theorem lstrip_idem (s : List Char) : lstripWs (lstripWs s) = lstripWs s :=
  dropWhile_eq_self _ _ (dropWhile_head_not _ s)

theorem rstrip_idem (s : List Char) : rstripWs (rstripWs s) = rstripWs s := by
  unfold rstripWs
  rw [List.reverse_reverse, dropWhile_eq_self _ _ (dropWhile_head_not _ _)]

theorem rstrip_decomp (s : List Char) :
    ∃ t, s = rstripWs s ++ t ∧ t.all pyIsSpace = true := by
  refine ⟨(s.reverse.takeWhile pyIsSpace).reverse, ?_, ?_⟩
  · unfold rstripWs
    rw [← List.reverse_append, List.takeWhile_append_dropWhile, List.reverse_reverse]
  · rw [List.all_eq_true]
    intro c hc
    rw [List.mem_reverse] at hc
    exact List.mem_takeWhile_imp hc

theorem head?_rstrip (s : List Char) (h : rstripWs s ≠ []) :
    (rstripWs s).head? = s.head? := by
  obtain ⟨t, hts, _⟩ := rstrip_decomp s
  cases hr : rstripWs s with
  | nil => exact absurd hr h
  | cons a r =>
    rw [hr] at hts
    rw [hts]
    simp

theorem pystrip_idem (s : List Char) : pystrip (pystrip s) = pystrip s := by
  unfold pystrip
  have hx : ∀ c, (lstripWs s).head? = some c → pyIsSpace c = false :=
    dropWhile_head_not _ s
  have h1 : lstripWs (rstripWs (lstripWs s)) = rstripWs (lstripWs s) := by
    apply dropWhile_eq_self
    intro c hc
    by_cases hnil : rstripWs (lstripWs s) = []
    · rw [hnil] at hc; simp at hc
    · rw [head?_rstrip _ hnil] at hc
      exact hx c hc
  rw [h1, rstrip_idem]

/-! ## C4: the primary parse of `translate_batch` -/

theorem cleanLinesL_stripped (ls : List (List Char)) :
    ∀ l ∈ cleanLinesL ls, pystrip l = l ∧ l ≠ [] := by
  intro l hl
  unfold cleanLinesL at hl
  rw [List.mem_filter] at hl
  obtain ⟨hmem, hne⟩ := hl
  rw [List.mem_map] at hmem
  obtain ⟨x, hx, rfl⟩ := hmem
  exact ⟨pystrip_idem x, by simpa using hne⟩

theorem primaryGo_eq_clean (ls : List (List Char)) :
    ∀ cur, primaryGo ls cur = primaryGo (cleanLinesL ls) cur := by
  induction ls with
  | nil => intro cur; rfl
  | cons l rest ih =>
    intro cur
    by_cases h0 : pystrip l = []
    · rw [primaryGo, if_pos h0]
      have : cleanLinesL (l :: rest) = cleanLinesL rest := by
        unfold cleanLinesL
        simp [List.filter_cons, h0]
      rw [this]
      exact ih cur
    · have hcl : cleanLinesL (l :: rest) = pystrip l :: cleanLinesL rest := by
        unfold cleanLinesL
        simp [List.filter_cons, h0]
      rw [hcl]
      simp only [primaryGo, pystrip_idem]
      rw [if_neg h0, if_neg h0]
      by_cases hm : isMarkerLine (pystrip l) = true
      · rw [if_pos hm, if_pos hm]
        by_cases hc : cur = []
        · rw [if_pos hc, if_pos hc]; exact ih _
        · rw [if_neg hc, if_neg hc, ih _]
      · rw [if_neg hm, if_neg hm, ih _]

theorem primaryGo_cont (cs : List (List Char)) :
    ∀ (rest : List (List Char)) (t : List Char),
      (∀ c ∈ cs, pystrip c = c ∧ c ≠ [] ∧ isMarkerLine c = false) →
      primaryGo (cs ++ rest) t = primaryGo rest (unitFold t cs) := by
  induction cs with
  | nil => intro rest t h; simp [unitFold]
  | cons c cs ih =>
    intro rest t h
    obtain ⟨hst, hne, hm⟩ := h c (by simp)
    rw [List.cons_append, primaryGo, hst, if_neg hne, if_neg (by simp [hm])]
    rw [ih rest _ (fun x hx => h x (by simp [hx]))]
    rfl

theorem primaryGo_groups (gs : List (List (List Char))) :
    ∀ t : List Char,
      (∀ g ∈ gs, ∃ m cs, g = m :: cs ∧ pystrip m = m ∧ m ≠ [] ∧ isMarkerLine m = true ∧
         (∀ c ∈ cs, pystrip c = c ∧ c ≠ [] ∧ isMarkerLine c = false) ∧ unitRawOf g ≠ []) →
      primaryGo gs.flatten t = (if t = [] then [] else [pystrip t]) ++ gs.map unitOf := by
  induction gs with
  | nil =>
    intro t h
    by_cases hc : t = [] <;> simp [primaryGo, hc]
  | cons g gs ih =>
    intro t h
    obtain ⟨m, cs, rfl, hstm, hnem, hmm, hcs, hune⟩ := h g (by simp)
    have hraw : unitRawOf (m :: cs) = unitFold (pystrip (afterBracket m)) cs := by
      unfold unitRawOf; rfl
    rw [List.flatten_cons, List.cons_append, primaryGo, hstm,
      if_neg hnem, if_pos hmm]
    have hrec :
        primaryGo (cs ++ gs.flatten) (pystrip (afterBracket m)) =
          unitOf (m :: cs) :: gs.map unitOf := by
      rw [primaryGo_cont cs _ _ hcs, ← hraw,
        ih _ (fun g hg => h g (by simp [hg])), if_neg hune]
      rfl
    by_cases hc : t = []
    · rw [if_pos hc, hrec, if_pos hc]
      simp
    · rw [if_neg hc, hrec, if_neg hc]
      simp

/-- C4 amended: if the stripped non-empty lines of the raw response decompose
into `K` groups, each a marker line (`[` start, containing `]`) followed by
non-marker continuation lines, and each group's accumulated unit (marker tail,
continuations space-appended) is non-empty, then the primary parse returns
exactly the `K` units in order.  (Without the extra conditions the claim
fails: a leading non-marker line opens a unit of its own, and a marker whose
unit stays empty is never flushed — see the counterexample.) -/
theorem primaryParse_marker_groups (raw : List Char) (gs : List (List (List Char)))
    (hdecomp : cleanLines raw = gs.flatten)
    (hshape : ∀ g ∈ gs, ∃ m cs, g = m :: cs ∧ isMarkerLine m = true ∧
       ∀ c ∈ cs, isMarkerLine c = false)
    (hne : ∀ g ∈ gs, unitRawOf g ≠ []) :
    primaryParse raw = gs.map unitOf := by
  unfold primaryParse
  rw [primaryGo_eq_clean]
  have hflat : cleanLinesL (splitLines raw) = gs.flatten := hdecomp
  rw [hflat]
  rw [primaryGo_groups gs []]
  · rfl
  · intro g hg
    obtain ⟨m, cs, rfl, hmm, hcs⟩ := hshape g hg
    have hmem : ∀ x ∈ m :: cs, pystrip x = x ∧ x ≠ [] := by
      intro x hx
      apply cleanLinesL_stripped (splitLines raw)
      rw [hflat]
      exact List.mem_flatten.mpr ⟨m :: cs, hg, hx⟩
    obtain ⟨hstm, hnem⟩ := hmem m (by simp)
    exact ⟨m, cs, rfl, hstm, hnem, hmm,
      fun c hc => ⟨(hmem c (by simp [hc])).1, (hmem c (by simp [hc])).2, hcs c hc⟩,
      hne _ hg⟩

/-- C4 counterexample: `"[1]"` is exactly one marker line (matching a batch of
one entry), yet the primary parse returns no unit at all — the empty unit is
never flushed — so it does not return `K = 1` strings. -/
theorem primaryParse_counterexample :
    ((cleanLines ("[1]".data)).filter isMarkerLine).length = 1 ∧
    (primaryParse ("[1]".data)).length = 0 := by
  refine ⟨by decide, by decide⟩

/-- Witness for C4 at a concrete input: response `"[1] Hi\nthere\n\n[2] Yo"`
for a batch of two entries parses into `["Hi there", "Yo"]`. -/
theorem primaryParse_marker_groups_witness :
    cleanLines ("[1] Hi\nthere\n\n[2] Yo".data) =
      [["[1] Hi".data, "there".data], [("[2] Yo".data)]].flatten ∧
    primaryParse ("[1] Hi\nthere\n\n[2] Yo".data) =
      [["[1] Hi".data, "there".data], [("[2] Yo".data)]].map unitOf := by
  constructor
  · decide
  · exact primaryParse_marker_groups _ _ (by decide)
      (by
        intro g hg
        fin_cases hg
        · exact ⟨"[1] Hi".data, [("there".data)], by decide, by decide, by decide⟩
        · exact ⟨"[2] Yo".data, [], by decide, by decide, by decide⟩)
      (by decide)

/-! ## C5: fallback to per-entry translation -/

theorem translate_individually_spec (o : Oracle) (batch : List SRTEntry) :
    ∀ (n : Nat) (ctx : List Char),
      (translate_individually o n batch ctx).1.length = batch.length ∧
      (translate_individually o n batch ctx).2 = n + batch.length ∧
      ∀ i e, batch[i]? = some e →
        (translate_individually o n batch ctx).1[i]? =
          some (match o (n + i) with
                | none => failSent e.text
                | some raw => pystrip (pystrip raw)) := by
  induction batch with
  | nil =>
    intro n ctx
    refine ⟨rfl, by simp [translate_individually], ?_⟩
    intro i e he
    simp at he
  | cons e0 rest ih =>
    intro n ctx
    refine ⟨?_, ?_, ?_⟩
    · simp [translate_individually, (ih (n + 1) ctx).1]
    · simp only [translate_individually, (ih (n + 1) ctx).2.1, List.length_cons]
      omega
    · intro i e he
      cases i with
      | zero =>
        simp only [List.getElem?_cons_zero, Option.some.injEq] at he
        subst he
        simp only [translate_individually, List.getElem?_cons_zero, Nat.add_zero]
        cases ho : o n with
        | none => simp [translate_text, ho]
        | some raw => simp [translate_text, ho]
      | succ i =>
        simp only [List.getElem?_cons_succ] at he
        have hr := (ih (n + 1) ctx).2.2 i e he
        simp only [translate_individually, List.getElem?_cons_succ]
        have harith : n + 1 + i = n + (i + 1) := by omega
        rw [harith] at hr
        exact hr

/-- C5: if the batched call raises, or neither the primary parse nor the
fallback line parse of the response yields exactly the batch size, then
`translate_batch` degrades to per-entry individual translation: the i-th
entry's result comes from its own client call (slot `n+1+i`); a failing call
yields the sentinel `"[翻譯失敗] " ++ sourceText` for that entry only, and the
remaining entries of the batch are still translated (the result always covers
the whole batch). -/
theorem translate_batch_fallback (o : Oracle) (n : Nat) (batch : List SRTEntry)
    (ctx : List Char)
    (hmis : ∀ raw, o n = some raw →
      (primaryParse (pystrip raw)).length ≠ batch.length ∧
      (altParse (pystrip raw)).length ≠ batch.length) :
    translate_batch o n batch ctx = translate_individually o (n + 1) batch ctx ∧
    (translate_batch o n batch ctx).1.length = batch.length ∧
    ∀ i e, batch[i]? = some e →
      (translate_batch o n batch ctx).1[i]? =
        some (match o (n + 1 + i) with
              | none => failSent e.text
              | some raw => pystrip (pystrip raw)) := by
  have heq : translate_batch o n batch ctx = translate_individually o (n + 1) batch ctx := by
    unfold translate_batch
    cases ho : o n with
    | none => simp [translate_text, ho]
    | some raw =>
      obtain ⟨h1, h2⟩ := hmis raw ho
      simp [translate_text, ho, h1, h2]
  refine ⟨heq, ?_, ?_⟩
  · rw [heq]
    exact (translate_individually_spec o batch (n + 1) ctx).1
  · intro i e he
    rw [heq]
    exact (translate_individually_spec o batch (n + 1) ctx).2.2 i e he

/-- Witness for C5 at a concrete input: the batch call and the first
individual call raise, the remaining calls succeed. -/
theorem translate_batch_fallback_witness :
    translate_batch demoOracleC5 0 demoEntries [] =
      translate_individually demoOracleC5 1 demoEntries [] ∧
    (translate_batch demoOracleC5 0 demoEntries []).1.length = demoEntries.length ∧
    ∀ i e, demoEntries[i]? = some e →
      (translate_batch demoOracleC5 0 demoEntries []).1[i]? =
        some (match demoOracleC5 (0 + 1 + i) with
              | none => failSent e.text
              | some raw => pystrip (pystrip raw)) :=
  translate_batch_fallback demoOracleC5 0 demoEntries []
    (by intro raw h; simp [demoOracleC5] at h)

/-! ## List-update lemmas for the batch pass -/

theorem padTrunc_length (ts : List (List Char)) (batch : List SRTEntry) :
    (padTrunc ts batch).length = batch.length := by
  unfold padTrunc
  simp only [List.length_take, List.length_append, List.length_map, List.length_drop]
  omega

theorem translate_batch_length (o : Oracle) (n : Nat) (batch : List SRTEntry)
    (ctx : List Char) :
    (translate_batch o n batch ctx).1.length = batch.length := by
  unfold translate_batch
  cases ho : translate_text o n with
  | none => exact (translate_individually_spec o batch (n + 1) ctx).1
  | some translated =>
    by_cases h1 : (primaryParse translated).length = batch.length
    · simp only [if_pos h1]
      exact padTrunc_length _ _
    · by_cases h2 : (altParse translated).length = batch.length
      · simp only [if_neg h1, if_pos h2]
        exact padTrunc_length _ _
      · simp only [if_neg h1, if_neg h2]
        exact (translate_individually_spec o batch (n + 1) ctx).1

theorem assignZip_length (es : List SRTEntry) :
    ∀ ts, (assignZip es ts).length = es.length := by
  induction es with
  | nil => intro ts; cases ts <;> rfl
  | cons e es ih =>
    intro ts
    cases ts with
    | nil => rfl
    | cons t ts => simp [assignZip, ih]

theorem assignZip_getElem_ge (es : List SRTEntry) :
    ∀ ts j, ts.length ≤ j → (assignZip es ts)[j]? = es[j]? := by
  induction es with
  | nil => intro ts j h; cases ts <;> rfl
  | cons e es ih =>
    intro ts j h
    cases ts with
    | nil => rfl
    | cons t ts =>
      cases j with
      | zero => simp at h
      | succ j =>
        simp only [assignZip, List.getElem?_cons_succ]
        exact ih ts j (by simpa using h)

theorem assignZip_getElem_lt (es : List SRTEntry) :
    ∀ (ts : List (List Char)) (j : Nat) (t : List Char) (e : SRTEntry),
      ts[j]? = some t → es[j]? = some e →
      (assignZip es ts)[j]? = some { e with translated_text := t } := by
  induction es with
  | nil => intro ts j t e ht he; simp at he
  | cons e0 es ih =>
    intro ts j t e ht he
    cases ts with
    | nil => simp at ht
    | cons t0 ts =>
      cases j with
      | zero =>
        simp only [List.getElem?_cons_zero, Option.some.injEq] at ht he
        subst ht; subst he
        simp [assignZip]
      | succ j =>
        simp only [List.getElem?_cons_succ] at ht he
        simp only [assignZip, List.getElem?_cons_succ]
        exact ih ts j t e ht he

theorem updateRange_length (es : List SRTEntry) (idx : Nat) (ts : List (List Char)) :
    (updateRange es idx ts).length = es.length := by
  unfold updateRange
  rw [List.length_append, assignZip_length]
  simp only [List.length_take, List.length_drop]
  omega

theorem updateRange_getElem_lt (es : List SRTEntry) (idx : Nat) (ts : List (List Char))
    (j : Nat) (hj : j < idx) : (updateRange es idx ts)[j]? = es[j]? := by
  unfold updateRange
  by_cases hle : j < es.length
  · rw [List.getElem?_append_left (by simp only [List.length_take]; omega)]
    rw [List.getElem?_take, if_pos hj]
  · have h1 : es.length ≤ j := by omega
    have h2 : (es.take idx ++ assignZip (es.drop idx) ts).length ≤ j := by
      rw [List.length_append, assignZip_length]
      simp only [List.length_take, List.length_drop]
      omega
    rw [List.getElem?_eq_none h2, List.getElem?_eq_none h1]

theorem updateRange_getElem_in (es : List SRTEntry) (idx : Nat) (ts : List (List Char))
    (j : Nat) (hj1 : idx ≤ j) (hj2 : j < idx + ts.length) (hj3 : j < es.length)
    (e : SRTEntry) (he : es[j]? = some e) (t : List Char) (ht : ts[j - idx]? = some t) :
    (updateRange es idx ts)[j]? = some { e with translated_text := t } := by
  unfold updateRange
  have hidx : idx ≤ es.length := by omega
  rw [List.getElem?_append_right (by simp only [List.length_take]; omega)]
  have hlen : (es.take idx).length = idx := by simp only [List.length_take]; omega
  rw [hlen]
  apply assignZip_getElem_lt _ _ _ t e ht
  rw [List.getElem?_drop]
  rw [show idx + (j - idx) = j by omega]
  exact he

theorem updateRange_getElem_ge (es : List SRTEntry) (idx : Nat) (ts : List (List Char))
    (j : Nat) (hj : idx + ts.length ≤ j) : (updateRange es idx ts)[j]? = es[j]? := by
  unfold updateRange
  by_cases hidx : idx ≤ es.length
  · by_cases hle : j < es.length
    · have hts : (assignZip (es.drop idx) ts)[j - idx]? = (es.drop idx)[j - idx]? := by
        apply assignZip_getElem_ge
        omega
      rw [List.getElem?_append_right (by simp only [List.length_take]; omega)]
      have hlen : (es.take idx).length = idx := by simp only [List.length_take]; omega
      rw [hlen, hts, List.getElem?_drop, show idx + (j - idx) = j by omega]
    · have h2 : (es.take idx ++ assignZip (es.drop idx) ts).length ≤ j := by
        rw [List.length_append, assignZip_length]
        simp only [List.length_take, List.length_drop]
        omega
      rw [List.getElem?_eq_none h2, List.getElem?_eq_none (by omega)]
  · have h3 : es.take idx = es := List.take_of_length_le (by omega)
    have h4 : es.drop idx = [] := List.drop_eq_nil_of_le (by omega)
    have h5 : assignZip ([] : List SRTEntry) ts = [] := by cases ts <;> rfl
    rw [h3, h4, h5, List.append_nil]

theorem accountGo_indices (ts : List (List Char)) :
    ∀ i st, (accountGo ts i st).failed_indices = st.failed_indices ++ badIdx ts i := by
  induction ts with
  | nil => intro i st; simp [accountGo, badIdx]
  | cons t ts ih =>
    intro i st
    rw [accountGo, badIdx]
    by_cases hg : goodT t = true
    · rw [if_pos hg, if_pos hg, ih]
    · rw [if_neg hg, if_neg hg, ih]
      simp

theorem badIdx_mem (ts : List (List Char)) :
    ∀ i k t, ts[k]? = some t → goodT t = false → i + k ∈ badIdx ts i := by
  induction ts with
  | nil => intro i k t h; simp at h
  | cons t0 ts ih =>
    intro i k t h hg
    cases k with
    | zero =>
      simp only [List.getElem?_cons_zero, Option.some.injEq] at h
      subst h
      rw [badIdx, if_neg (by simp [hg])]
      simp
    | succ k =>
      simp only [List.getElem?_cons_succ] at h
      have := ih (i + 1) k t h hg
      rw [badIdx]
      by_cases hg0 : goodT t0 = true
      · rw [if_pos hg0]
        rw [show i + (k + 1) = i + 1 + k by omega]
        exact this
      · rw [if_neg hg0]
        rw [show i + (k + 1) = i + 1 + k by omega]
        exact List.mem_cons_of_mem _ this

/-! ## C1: coverage of the batch pass -/

theorem goodT_ne_nil (t : List Char) (h : goodT t = true) : t ≠ [] := by
  intro hnil
  subst hnil
  simp [goodT] at h

theorem passGo_coverage (o : Oracle) (bs : List (List SRTEntry)) :
    ∀ (es : List SRTEntry) (n idx : Nat) (st : FileStats),
      idx + (bs.map List.length).sum = es.length →
      (passGo o bs es n idx st).1.length = es.length ∧
      (∀ j, j < idx → (passGo o bs es n idx st).1[j]? = es[j]?) ∧
      (∃ suf, (passGo o bs es n idx st).2.1.failed_indices = st.failed_indices ++ suf) ∧
      (∀ j, idx ≤ j → j < es.length →
        ∃ e, (passGo o bs es n idx st).1[j]? = some e ∧
          (e.translated_text ≠ [] ∨ j ∈ (passGo o bs es n idx st).2.1.failed_indices)) := by
  induction bs with
  | nil =>
    intro es n idx st hsum
    refine ⟨rfl, fun j hj => rfl, ⟨[], by simp [passGo]⟩, ?_⟩
    intro j h1 h2
    simp only [List.map_nil, List.sum_nil] at hsum
    omega
  | cons b bs ih =>
    intro es n idx st hsum
    have hstep : passGo o (b :: bs) es n idx st =
        passGo o bs
          (updateRange es idx ((translate_batch o n b (get_context es idx)).1.take b.length))
          (translate_batch o n b (get_context es idx)).2
          (idx + ((translate_batch o n b (get_context es idx)).1.take b.length).length)
          (accountGo ((translate_batch o n b (get_context es idx)).1.take b.length) idx st) :=
      rfl
    have hts_len : ((translate_batch o n b (get_context es idx)).1.take b.length).length
        = b.length := by
      rw [List.length_take, translate_batch_length]
      simp
    set ts := (translate_batch o n b (get_context es idx)).1.take b.length with hts
    set es2 := updateRange es idx ts with hes2
    set st2 := accountGo ts idx st with hst2
    have hsum2 : (idx + ts.length) + (bs.map List.length).sum = es2.length := by
      rw [hes2, updateRange_length, hts_len]
      simp only [List.map_cons, List.sum_cons] at hsum
      omega
    obtain ⟨ih1, ih2, ih3, ih4⟩ :=
      ih es2 (translate_batch o n b (get_context es idx)).2 (idx + ts.length) st2 hsum2
    rw [hstep]
    refine ⟨?_, ?_, ?_, ?_⟩
    · rw [ih1, hes2, updateRange_length]
    · intro j hj
      rw [ih2 j (by omega), hes2, updateRange_getElem_lt _ _ _ _ hj]
    · obtain ⟨suf, hsuf⟩ := ih3
      refine ⟨badIdx ts idx ++ suf, ?_⟩
      rw [hsuf, hst2, accountGo_indices, List.append_assoc]
    · intro j hj1 hj2
      by_cases hj3 : j < idx + ts.length
      · have hjts : j - idx < ts.length := by omega
        have htsj : ts[j - idx]? = some (ts.get ⟨j - idx, hjts⟩) := by
          rw [List.getElem?_eq_getElem hjts]
          rfl
        have hesj : es[j]? = some (es.get ⟨j, hj2⟩) := by
          rw [List.getElem?_eq_getElem hj2]
          rfl
        have hup : es2[j]? =
            some { es.get ⟨j, hj2⟩ with translated_text := ts.get ⟨j - idx, hjts⟩ } := by
          rw [hes2]
          exact updateRange_getElem_in es idx ts j hj1 hj3 hj2 _ hesj _ htsj
        refine ⟨{ es.get ⟨j, hj2⟩ with translated_text := ts.get ⟨j - idx, hjts⟩ }, ?_, ?_⟩
        · rw [ih2 j hj3, hup]
        · by_cases hg : goodT (ts.get ⟨j - idx, hjts⟩) = true
          · left
            exact goodT_ne_nil _ hg
          · right
            have hbad : j ∈ badIdx ts idx := by
              have := badIdx_mem ts idx (j - idx) _ htsj (by simpa using hg)
              rwa [show idx + (j - idx) = j by omega] at this
            obtain ⟨suf, hsuf⟩ := ih3
            rw [hsuf, hst2, accountGo_indices]
            exact List.mem_append_left _ (List.mem_append_right _ hbad)
      · have hle : idx + ts.length ≤ j := by omega
        have hj4 : j < es2.length := by rw [hes2, updateRange_length]; exact hj2
        exact ih4 j hle hj4

/-- C1 amended: after the batch pass of `translate_single_file` every entry of
the file is assigned: it either carries a non-empty `translated_text` (a
parsed translation or a failure sentinel) or — only when the parse assigned it
an empty string — its position is recorded in the failure statistics.  No
entry is skipped silently. -/
theorem translate_single_file_coverage (o : Oracle) (n : Nat)
    (entries : List SRTEntry) (max_words : Nat) :
    (translate_single_file o n entries max_words).1.length = entries.length ∧
    ∀ j, j < entries.length →
      ∃ e, (translate_single_file o n entries max_words).1[j]? = some e ∧
        (e.translated_text ≠ [] ∨
         j ∈ (translate_single_file o n entries max_words).2.1.failed_indices) := by
  have hflat : (create_batches entries max_words).flatten = entries := by
    simpa [create_batches] using createBatchesGo_join max_words entries [] 0
  have hsum : 0 + ((create_batches entries max_words).map List.length).sum = entries.length := by
    rw [← List.length_flatten, hflat]
    omega
  obtain ⟨h1, h2, h3, h4⟩ :=
    passGo_coverage o (create_batches entries max_words) entries n 0
      { success := 0, failed := 0, failed_indices := [] } hsum
  exact ⟨h1, fun j hj => h4 j (Nat.zero_le j) hj⟩

/-- C1 counterexample: with the client responding `"[1]"`, the fallback line
parse yields one *empty* unit for a one-entry batch and the entry ends the
pass with its initial empty `translated_text` (counted as failed), refuting
the claim that every entry ends with a non-empty string. -/
theorem translate_single_file_empty_counterexample :
    ((translate_single_file oracleBad 0
        [mkEntry 1 ("a".data) ("b".data) ("hello".data)] 100).1.map
      SRTEntry.translated_text) = [[]] ∧
    (translate_single_file oracleBad 0
        [mkEntry 1 ("a".data) ("b".data) ("hello".data)] 100).2.1.failed_indices = [0] := by
  refine ⟨by decide, by decide⟩

/-- Witness for C1 at a concrete input. -/
theorem translate_single_file_coverage_witness :
    0 < demoEntries.length ∧
    (∃ e, (translate_single_file demoOracleC5 0 demoEntries 100).1[0]? = some e ∧
      (e.translated_text ≠ [] ∨
       0 ∈ (translate_single_file demoOracleC5 0 demoEntries 100).2.1.failed_indices)) :=
  ⟨by decide,
   (translate_single_file_coverage demoOracleC5 0 demoEntries 100).2 0 (by decide)⟩

/-! ## C9: the immutable entry core -/

theorem sameCore_refl (a : SRTEntry) : sameCore a a := ⟨rfl, rfl, rfl, rfl⟩

theorem forall2_sameCore_refl (l : List SRTEntry) : List.Forall₂ sameCore l l := by
  induction l with
  | nil => exact List.Forall₂.nil
  | cons e l ih => exact List.Forall₂.cons (sameCore_refl e) ih

theorem forall2_sameCore_trans {a b c : List SRTEntry}
    (h1 : List.Forall₂ sameCore a b) (h2 : List.Forall₂ sameCore b c) :
    List.Forall₂ sameCore a c := by
  induction h1 generalizing c with
  | nil =>
    cases h2
    exact List.Forall₂.nil
  | cons hab h1 ih =>
    cases h2 with
    | cons hbc h2 =>
      exact List.Forall₂.cons
        ⟨hab.1.trans hbc.1, hab.2.1.trans hbc.2.1,
         hab.2.2.1.trans hbc.2.2.1, hab.2.2.2.trans hbc.2.2.2⟩ (ih h2)

theorem assignZip_core (es : List SRTEntry) :
    ∀ ts, List.Forall₂ sameCore (assignZip es ts) es := by
  induction es with
  | nil =>
    intro ts
    cases ts <;> exact List.Forall₂.nil
  | cons e es ih =>
    intro ts
    cases ts with
    | nil => exact forall2_sameCore_refl _
    | cons t ts =>
      simp only [assignZip]
      exact List.Forall₂.cons ⟨rfl, rfl, rfl, rfl⟩ (ih ts)

theorem updateRange_core (es : List SRTEntry) (idx : Nat) (ts : List (List Char)) :
    List.Forall₂ sameCore (updateRange es idx ts) es := by
  unfold updateRange
  conv_rhs => rw [← List.take_append_drop idx es]
  exact List.rel_append (forall2_sameCore_refl _) (assignZip_core _ ts)

theorem passGo_core (o : Oracle) (bs : List (List SRTEntry)) :
    ∀ es n idx st, List.Forall₂ sameCore (passGo o bs es n idx st).1 es := by
  induction bs with
  | nil => intro es n idx st; exact forall2_sameCore_refl es
  | cons b bs ih =>
    intro es n idx st
    have hstep : passGo o (b :: bs) es n idx st =
        passGo o bs
          (updateRange es idx ((translate_batch o n b (get_context es idx)).1.take b.length))
          (translate_batch o n b (get_context es idx)).2
          (idx + ((translate_batch o n b (get_context es idx)).1.take b.length).length)
          (accountGo ((translate_batch o n b (get_context es idx)).1.take b.length) idx st) :=
      rfl
    rw [hstep]
    exact forall2_sameCore_trans (ih _ _ _ _) (updateRange_core es idx _)

theorem set_core (es : List SRTEntry) (idx : Nat) (e2 : SRTEntry)
    (h : ∀ e, es[idx]? = some e → sameCore e2 e) :
    List.Forall₂ sameCore (es.set idx e2) es := by
  rw [List.forall₂_iff_get]
  refine ⟨by simp, ?_⟩
  intro i h1 h2
  simp only [List.get_eq_getElem]
  rw [List.getElem_set]
  by_cases hii : idx = i
  · rw [if_pos hii]
    subst hii
    exact h _ (List.getElem?_eq_getElem h2)
  · rw [if_neg hii]
    exact sameCore_refl _

theorem set_translated_core (es : List SRTEntry) (idx : Nat) (h : idx < es.length)
    (tx : List Char) :
    List.Forall₂ sameCore (es.set idx { es.get ⟨idx, h⟩ with translated_text := tx }) es := by
  apply set_core
  intro e he
  rw [List.getElem?_eq_getElem h] at he
  cases he
  exact ⟨rfl, rfl, rfl, rfl⟩

theorem retryGo_core (o : Oracle) (fl : List Nat) :
    ∀ st : RetryState, List.Forall₂ sameCore (retryGo o fl st).entries st.entries := by
  induction fl with
  | nil => intro st; exact forall2_sameCore_refl _
  | cons idx rest ih =>
    intro st
    rw [retryGo]
    by_cases h : idx < st.entries.length
    · rw [dif_pos h]
      cases ho : translate_text o st.counter with
      | some t =>
        simp only [ho]
        by_cases hg : goodT t = true
        · rw [if_pos hg]
          exact forall2_sameCore_trans (ih _) (set_translated_core st.entries idx h _)
        · rw [if_neg hg]
          exact forall2_sameCore_trans (ih _) (set_translated_core st.entries idx h _)
      | none =>
        simp only [ho]
        exact forall2_sameCore_trans (ih _) (set_translated_core st.entries idx h _)
    · rw [dif_neg h]
      exact ih st

/-- C9: no translation operation modifies `index`, `start_time`, `end_time` or
the source `text`: both the batch pass of `translate_single_file` and the
manual retry return entry lists whose immutable core agrees entrywise with the
input; `translated_text` is the only field assigned. -/
theorem translation_preserves_core (o : Oracle) (n : Nat) (entries : List SRTEntry)
    (max_words : Nat) (failed_indices : List Nat) (success failed : Nat)
    (status : FileStatus) :
    List.Forall₂ sameCore (translate_single_file o n entries max_words).1 entries ∧
    List.Forall₂ sameCore
      (retry_failed_worker o n entries failed_indices success failed status).entries entries :=
  ⟨passGo_core o (create_batches entries max_words) entries n 0
      { success := 0, failed := 0, failed_indices := [] },
   retryGo_core o failed_indices
      { entries := entries, counter := n, retry_success := 0, retry_failed := 0,
        new_failed_indices := [] }⟩

/-! ## C6: the manual retry of failed entries -/

theorem retryGo_cons_lt (o : Oracle) (idx0 : Nat) (rest : List Nat) (st : RetryState)
    (h0 : idx0 < st.entries.length) :
    retryGo o (idx0 :: rest) st =
      retryGo o rest
        { st with
          entries := st.entries.set idx0
            { st.entries.get ⟨idx0, h0⟩ with
              translated_text := retryText (o st.counter) (st.entries.get ⟨idx0, h0⟩) },
          counter := st.counter + 1,
          retry_success :=
            if retryOk (o st.counter) = true then st.retry_success + 1 else st.retry_success,
          retry_failed :=
            if retryOk (o st.counter) = true then st.retry_failed else st.retry_failed + 1,
          new_failed_indices :=
            if retryOk (o st.counter) = true then st.new_failed_indices
            else st.new_failed_indices ++ [idx0] } := by
  rw [retryGo, dif_pos h0]
  cases ho : o st.counter with
  | none =>
    have htt : translate_text o st.counter = none := by simp [translate_text, ho]
    simp only [htt]
    rfl
  | some raw =>
    have htt : translate_text o st.counter = some (pystrip raw) := by
      simp [translate_text, ho]
    simp only [htt]
    by_cases hg : goodT (pystrip raw) = true
    · have hok : retryOk (some raw) = true := by simp [retryOk, hg]
      rw [if_pos hg, if_pos hok, if_pos hok, if_pos hok]
      rfl
    · have hok : ¬ retryOk (some raw) = true := by
        simp only [retryOk]
        simpa using hg
      rw [if_neg hg, if_neg hok, if_neg hok, if_neg hok]
      rfl

theorem retryGo_cons_ge (o : Oracle) (idx0 : Nat) (rest : List Nat) (st : RetryState)
    (h0 : ¬ idx0 < st.entries.length) :
    retryGo o (idx0 :: rest) st = retryGo o rest st := by
  rw [retryGo, dif_neg h0]

theorem retryGo_spec (o : Oracle) (fl : List Nat) :
    ∀ st : RetryState,
      (∀ i ∈ fl, i < st.entries.length) →
      fl.Nodup →
      (retryGo o fl st).entries.length = st.entries.length ∧
      (∀ j, j ∉ fl → (retryGo o fl st).entries[j]? = st.entries[j]?) ∧
      (retryGo o fl st).counter = st.counter + fl.length ∧
      (∃ suf, (retryGo o fl st).new_failed_indices = st.new_failed_indices ++ suf ∧
        ∀ i ∈ suf, i ∈ fl) ∧
      (∀ k idx, fl[k]? = some idx →
        ∃ e, st.entries[idx]? = some e ∧
          (retryGo o fl st).entries[idx]? =
            some { e with translated_text := retryText (o (st.counter + k)) e } ∧
          ((idx ∈ (retryGo o fl st).new_failed_indices) ↔
            (idx ∈ st.new_failed_indices ∨ retryOk (o (st.counter + k)) = false))) := by
  induction fl with
  | nil =>
    intro st hval hnodup
    refine ⟨rfl, fun j hj => rfl, by simp [retryGo], ⟨[], by simp [retryGo], by simp⟩, ?_⟩
    intro k idx h
    simp at h
  | cons idx0 rest ih =>
    intro st hval hnodup
    have h0 : idx0 < st.entries.length := hval idx0 (by simp)
    have hnot : idx0 ∉ rest := by
      rw [List.nodup_cons] at hnodup
      exact hnodup.1
    rw [retryGo_cons_lt o idx0 rest st h0]
    set e0 := st.entries.get ⟨idx0, h0⟩ with he0
    set st2 : RetryState :=
      { st with
        entries := st.entries.set idx0
          { e0 with translated_text := retryText (o st.counter) e0 },
        counter := st.counter + 1,
        retry_success :=
          if retryOk (o st.counter) = true then st.retry_success + 1 else st.retry_success,
        retry_failed :=
          if retryOk (o st.counter) = true then st.retry_failed else st.retry_failed + 1,
        new_failed_indices :=
          if retryOk (o st.counter) = true then st.new_failed_indices
          else st.new_failed_indices ++ [idx0] } with hst2
    have hval2 : ∀ i ∈ rest, i < st2.entries.length := by
      intro i hi
      have : st2.entries.length = st.entries.length := by
        rw [hst2]
        exact List.length_set _ _ _
      rw [this]
      exact hval i (by simp [hi])
    obtain ⟨ih1, ih2, ih3, ⟨suf, hsuf, hsufmem⟩, ih5⟩ :=
      ih st2 hval2 (List.Nodup.of_cons hnodup)
    have hlen2 : st2.entries.length = st.entries.length := by
      rw [hst2]; exact List.length_set _ _ _
    have hnf2 : st2.new_failed_indices =
        if retryOk (o st.counter) = true then st.new_failed_indices
        else st.new_failed_indices ++ [idx0] := rfl
    have hcnt2 : st2.counter = st.counter + 1 := rfl
    refine ⟨?_, ?_, ?_, ?_, ?_⟩
    · rw [ih1, hlen2]
    · intro j hj
      have hj0 : j ≠ idx0 := by intro hh; exact hj (by simp [hh])
      have hjr : j ∉ rest := by intro hh; exact hj (by simp [hh])
      rw [ih2 j hjr]
      show (st.entries.set idx0 _)[j]? = st.entries[j]?
      exact List.getElem?_set_ne (fun hh => hj0 hh.symm)
    · rw [ih3, hcnt2]
      simp only [List.length_cons]
      omega
    · refine ⟨(if retryOk (o st.counter) = true then [] else [idx0]) ++ suf, ?_, ?_⟩
      · rw [hsuf, hnf2]
        by_cases hok : retryOk (o st.counter) = true
        · rw [if_pos hok, if_pos hok]
          simp
        · rw [if_neg hok, if_neg hok]
          simp
      · intro i hi
        rcases List.mem_append.mp hi with hi1 | hi1
        · by_cases hok : retryOk (o st.counter) = true
          · rw [if_pos hok] at hi1; simp at hi1
          · rw [if_neg hok] at hi1
            simp at hi1
            simp [hi1]
        · exact List.mem_cons_of_mem _ (hsufmem i hi1)
    · intro k idx hk
      cases k with
      | zero =>
        simp only [List.getElem?_cons_zero, Option.some.injEq] at hk
        subst hk
        refine ⟨e0, List.getElem?_eq_getElem h0, ?_, ?_⟩
        · rw [ih2 idx0 hnot]
          show (st.entries.set idx0 _)[idx0]? = _
          rw [List.getElem?_set_self h0]
          rw [Nat.add_zero]
        · have hid : idx0 ∈ (retryGo o rest st2).new_failed_indices ↔
              idx0 ∈ st2.new_failed_indices := by
            rw [hsuf]
            constructor
            · intro hh
              rcases List.mem_append.mp hh with hh1 | hh1
              · exact hh1
              · exact absurd (hsufmem idx0 hh1) hnot
            · exact fun hh => List.mem_append_left _ hh
          rw [hid, hnf2, Nat.add_zero]
          by_cases hok : retryOk (o st.counter) = true
          · rw [if_pos hok]
            simp [hok]
          · rw [if_neg hok]
            have hok2 : retryOk (o st.counter) = false := by simpa using hok
            simp [hok2]
      | succ k =>
        simp only [List.getElem?_cons_succ] at hk
        have hidx_rest : idx ∈ rest := by
          exact List.getElem?_mem hk
        have hidxne : idx ≠ idx0 := by
          intro hh
          subst hh
          exact hnot hidx_rest
        obtain ⟨e, he, hre, hiff⟩ := ih5 k idx hk
        have he' : st.entries[idx]? = some e := by
          rw [← he]
          show st.entries[idx]? = (st.entries.set idx0 _)[idx]?
          rw [List.getElem?_set_ne (fun hh => hidxne hh.symm)]
        refine ⟨e, he', ?_, ?_⟩
        · rw [hre, hcnt2]
          rw [show st.counter + 1 + k = st.counter + (k + 1) by omega]
        · rw [hiff, hnf2, hcnt2]
          rw [show st.counter + 1 + k = st.counter + (k + 1) by omega]
          by_cases hok : retryOk (o st.counter) = true
          · rw [if_pos hok]
          · rw [if_neg hok]
            constructor
            · intro hh
              rcases hh with hh | hh
              · rcases List.mem_append.mp hh with hh1 | hh1
                · exact Or.inl hh1
                · simp at hh1
                  exact absurd hh1 hidxne
              · exact Or.inr hh
            · intro hh
              rcases hh with hh | hh
              · exact Or.inl (List.mem_append_left _ hh)
              · exact Or.inr hh

/-- C6: for a file in state PartiallyFailed whose recorded failed indices are
in range and distinct (as the batch pass records them), the manual retry
re-invokes individual translation for exactly those entries in order (the k-th
listed index consumes client call slot `n + k`) and no others — entries at all
other positions are untouched and exactly one call is made per index; a
retried entry is removed from `failed_indices` exactly when its call succeeds;
afterwards the file status is Done exactly when the remaining set is empty,
and otherwise stays PartiallyFailed. -/
theorem retry_failed_worker_spec (o : Oracle) (n : Nat) (entries : List SRTEntry)
    (failed_indices : List Nat) (success failed : Nat)
    (hval : ∀ i ∈ failed_indices, i < entries.length)
    (hnodup : failed_indices.Nodup) :
    (retry_failed_worker o n entries failed_indices success failed
        FileStatus.partiallyFailed).entries.length = entries.length ∧
    (∀ j, j ∉ failed_indices →
      (retry_failed_worker o n entries failed_indices success failed
          FileStatus.partiallyFailed).entries[j]? = entries[j]?) ∧
    (retry_failed_worker o n entries failed_indices success failed
        FileStatus.partiallyFailed).counter = n + failed_indices.length ∧
    (∀ k idx, failed_indices[k]? = some idx →
      ∃ e, entries[idx]? = some e ∧
        (retry_failed_worker o n entries failed_indices success failed
            FileStatus.partiallyFailed).entries[idx]? =
          some { e with translated_text := retryText (o (n + k)) e } ∧
        (idx ∈ (retry_failed_worker o n entries failed_indices success failed
            FileStatus.partiallyFailed).failed_indices ↔ retryOk (o (n + k)) = false)) ∧
    ((retry_failed_worker o n entries failed_indices success failed
        FileStatus.partiallyFailed).failed_indices = [] →
      (retry_failed_worker o n entries failed_indices success failed
          FileStatus.partiallyFailed).status = FileStatus.done) ∧
    ((retry_failed_worker o n entries failed_indices success failed
        FileStatus.partiallyFailed).failed_indices ≠ [] →
      (retry_failed_worker o n entries failed_indices success failed
          FileStatus.partiallyFailed).status = FileStatus.partiallyFailed) := by
  obtain ⟨h1, h2, h3, h4, h5⟩ :=
    retryGo_spec o failed_indices
      { entries := entries, counter := n, retry_success := 0, retry_failed := 0,
        new_failed_indices := [] } hval hnodup
  refine ⟨h1, h2, h3, ?_, ?_, ?_⟩
  · intro k idx hk
    obtain ⟨e, he, hre, hiff⟩ := h5 k idx hk
    refine ⟨e, he, hre, ?_⟩
    rw [show (retry_failed_worker o n entries failed_indices success failed
        FileStatus.partiallyFailed).failed_indices =
      (retryGo o failed_indices
        { entries := entries, counter := n, retry_success := 0, retry_failed := 0,
          new_failed_indices := [] }).new_failed_indices from rfl]
    rw [hiff]
    simp
  · intro hnil
    have hst : (retry_failed_worker o n entries failed_indices success failed
        FileStatus.partiallyFailed).status =
        if (retry_failed_worker o n entries failed_indices success failed
            FileStatus.partiallyFailed).failed_indices = [] then FileStatus.done
        else FileStatus.partiallyFailed := rfl
    rw [hst, if_pos hnil]
  · intro hnil
    have hst : (retry_failed_worker o n entries failed_indices success failed
        FileStatus.partiallyFailed).status =
        if (retry_failed_worker o n entries failed_indices success failed
            FileStatus.partiallyFailed).failed_indices = [] then FileStatus.done
        else FileStatus.partiallyFailed := rfl
    rw [hst, if_neg hnil]

/-- Witness for C6 at a concrete input: one failed index, whose retry
succeeds, so the file transitions to Done. -/
theorem retry_failed_worker_spec_witness :
    (∀ i ∈ ([1] : List Nat), i < demoEntries.length) ∧
    ([1] : List Nat).Nodup ∧
    ((retry_failed_worker demoOracleGood 0 demoEntries [1] 2 1
        FileStatus.partiallyFailed).entries.length = demoEntries.length ∧
    (∀ j, j ∉ ([1] : List Nat) →
      (retry_failed_worker demoOracleGood 0 demoEntries [1] 2 1
          FileStatus.partiallyFailed).entries[j]? = demoEntries[j]?) ∧
    (retry_failed_worker demoOracleGood 0 demoEntries [1] 2 1
        FileStatus.partiallyFailed).counter = 0 + ([1] : List Nat).length ∧
    (∀ k idx, ([1] : List Nat)[k]? = some idx →
      ∃ e, demoEntries[idx]? = some e ∧
        (retry_failed_worker demoOracleGood 0 demoEntries [1] 2 1
            FileStatus.partiallyFailed).entries[idx]? =
          some { e with translated_text := retryText (demoOracleGood (0 + k)) e } ∧
        (idx ∈ (retry_failed_worker demoOracleGood 0 demoEntries [1] 2 1
            FileStatus.partiallyFailed).failed_indices ↔
          retryOk (demoOracleGood (0 + k)) = false)) ∧
    ((retry_failed_worker demoOracleGood 0 demoEntries [1] 2 1
        FileStatus.partiallyFailed).failed_indices = [] →
      (retry_failed_worker demoOracleGood 0 demoEntries [1] 2 1
          FileStatus.partiallyFailed).status = FileStatus.done) ∧
    ((retry_failed_worker demoOracleGood 0 demoEntries [1] 2 1
        FileStatus.partiallyFailed).failed_indices ≠ [] →
      (retry_failed_worker demoOracleGood 0 demoEntries [1] 2 1
          FileStatus.partiallyFailed).status = FileStatus.partiallyFailed)) :=
  ⟨by decide, by decide,
   retry_failed_worker_spec demoOracleGood 0 demoEntries [1] 2 1 (by decide) (by decide)⟩

/-! ## C10: blocks with a doubled `' --> '` separator -/

theorem filterMap_filter_of_none {α β : Type} (p : α → Bool) (f : α → Option β)
    (l : List α) (h : ∀ b ∈ l, p b = true → f b = none) :
    l.filterMap f = (l.filter (fun b => !p b)).filterMap f := by
  induction l with
  | nil => rfl
  | cons a l ih =>
    have ihh := ih (fun b hb hpb => h b (by simp [hb]) hpb)
    by_cases hp : p a = true
    · have hfa : f a = none := h a (by simp) hp
      simp [List.filter_cons, List.filterMap_cons, hp, hfa, ihh]
    · simp [List.filter_cons, List.filterMap_cons, hp, ← ihh]

/-- C10: a block whose second line contains the literal `' --> '` more than
once (the split yields three or more parts, so the two-variable unpacking
raises `ValueError`, which the parser catches) produces no entry and no error:
the block is skipped silently, and parsing continues with — and returns
exactly the entries of — the remaining blocks. -/
theorem parse_skips_multi_arrow :
    (∀ g, badTimeBlock g = true → parseBlock g = none) ∧
    (∀ content, parse_srt content =
      ((groupBlocks (splitLines (pystrip content))).filter
        (fun b => !badTimeBlock b)).filterMap parseBlock) := by
  have hnone : ∀ g, badTimeBlock g = true → parseBlock g = none := by
    intro g hg
    unfold badTimeBlock at hg
    unfold parseBlock
    rcases hls : splitLines (pystrip (joinLines g)) with _ | ⟨l0, rest1⟩
    · rfl
    · rcases rest1 with _ | ⟨l1, rest2⟩
      · rfl
      · rw [hls] at hg
        simp only [decide_eq_true_eq] at hg
        rcases rest2 with _ | ⟨l2, rest3⟩
        · rfl
        · cases hpi : pyInt l0 with
          | none => simp [hpi]
          | some idx =>
            rcases hsa : splitArrow l1 with _ | ⟨a, rest4⟩
            · rw [hsa] at hg; simp at hg
            · rcases rest4 with _ | ⟨b, rest5⟩
              · rw [hsa] at hg; simp at hg
              · rcases rest5 with _ | ⟨c, t⟩
                · rw [hsa] at hg; simp at hg
                · simp [hpi, hsa]
  refine ⟨hnone, ?_⟩
  intro content
  unfold parse_srt
  exact filterMap_filter_of_none badTimeBlock parseBlock _
    (fun b hb hpb => hnone b hpb)

/-- Witness for C10 at a concrete input. -/
theorem parse_skips_multi_arrow_witness :
    badTimeBlock [("1".data), ("a --> --> --> b".data), ("x".data)] = true ∧
    parseBlock [("1".data), ("a --> --> --> b".data), ("x".data)] = none :=
  ⟨by decide, parse_skips_multi_arrow.1 _ (by decide)⟩

/-! ## Properties of `splitOn1` and `joinLines` -/

theorem splitOn1_ne_nil (c : Char) (s : List Char) : splitOn1 c s ≠ [] := by
  cases s with
  | nil => simp [splitOn1]
  | cons a rest =>
    rw [splitOn1]
    by_cases h : a = c
    · simp [h]
    · rw [if_neg h]
      cases hs : splitOn1 c rest with
      | nil => simp
      | cons x xs => simp

theorem mem_splitOn1 (c : Char) (s : List Char) : ∀ l ∈ splitOn1 c s, c ∉ l := by
  induction s with
  | nil =>
    intro l hl
    simp [splitOn1] at hl
    subst hl
    simp
  | cons a rest ih =>
    intro l hl
    rw [splitOn1] at hl
    by_cases h : a = c
    · rw [if_pos h] at hl
      rcases List.mem_cons.mp hl with rfl | hl2
      · simp
      · exact ih l hl2
    · rw [if_neg h] at hl
      cases hs : splitOn1 c rest with
      | nil => exact absurd hs (splitOn1_ne_nil c rest)
      | cons x xs =>
        rw [hs] at hl
        rcases List.mem_cons.mp hl with rfl | hl2
        · intro hmem
          rcases List.mem_cons.mp hmem with rfl | hmem2
          · exact h rfl
          · exact ih x (by rw [hs]; simp) hmem2
        · exact ih l (by rw [hs]; simp [hl2])

theorem splitOn1_no_sep (c : Char) (s : List Char) (h : c ∉ s) : splitOn1 c s = [s] := by
  induction s with
  | nil => rfl
  | cons a rest ih =>
    rw [splitOn1, if_neg (by intro hh; exact h (by simp [hh]))]
    rw [ih (fun hh => h (by simp [hh]))]

theorem splitOn1_cons_sep (c : Char) (rest : List Char) :
    splitOn1 c (c :: rest) = [] :: splitOn1 c rest := by
  rw [splitOn1, if_pos rfl]

theorem splitOn1_cons_ne (c a : Char) (rest : List Char) (h : ¬ a = c)
    (x : List Char) (xs : List (List Char)) (hs : splitOn1 c rest = x :: xs) :
    splitOn1 c (a :: rest) = (a :: x) :: xs := by
  rw [splitOn1, if_neg h, hs]

theorem splitOn1_append (c : Char) (x y : List Char) :
    splitOn1 c (x ++ c :: y) = splitOn1 c x ++ splitOn1 c y := by
  induction x with
  | nil =>
    rw [List.nil_append, splitOn1_cons_sep]
    rfl
  | cons a x ih =>
    rw [List.cons_append]
    by_cases h : a = c
    · subst h
      rw [splitOn1_cons_sep, splitOn1_cons_sep, ih]
      rfl
    · cases hs : splitOn1 c x with
      | nil => exact absurd hs (splitOn1_ne_nil c x)
      | cons x0 xs0 =>
        have hs2 : splitOn1 c (x ++ c :: y) = x0 :: (xs0 ++ splitOn1 c y) := by
          rw [ih, hs]
          rfl
        rw [splitOn1_cons_ne c a _ h _ _ hs2, splitOn1_cons_ne c a _ h _ _ hs]
        rfl

theorem joinLines_splitLines (s : List Char) : joinLines (splitLines s) = s := by
  unfold splitLines
  induction s with
  | nil => rfl
  | cons a rest ih =>
    by_cases h : a = '\n'
    · subst h
      rw [splitOn1_cons_sep]
      cases hs : splitOn1 '\n' rest with
      | nil => exact absurd hs (splitOn1_ne_nil _ rest)
      | cons x xs =>
        rw [hs] at ih
        have hj : joinLines ([] :: x :: xs) = [] ++ '\n' :: joinLines (x :: xs) := by
          simp only [joinLines]
        rw [hj, List.nil_append, ih]
    · cases hs : splitOn1 '\n' rest with
      | nil => exact absurd hs (splitOn1_ne_nil _ rest)
      | cons x xs =>
        rw [hs] at ih
        rw [splitOn1_cons_ne '\n' a rest h x xs hs]
        cases xs with
        | nil =>
          have h3 : x = rest := ih
          show joinLines [a :: x] = a :: rest
          rw [show joinLines [a :: x] = a :: x from rfl, h3]
        | cons x2 xs2 =>
          have h3 : x ++ '\n' :: joinLines (x2 :: xs2) = rest := ih
          show joinLines ((a :: x) :: x2 :: xs2) = a :: rest
          rw [show joinLines ((a :: x) :: x2 :: xs2) =
            (a :: x) ++ '\n' :: joinLines (x2 :: xs2) from rfl]
          rw [List.cons_append, h3]

theorem splitLines_joinLines (ls : List (List Char)) (hne : ls ≠ [])
    (h : ∀ l ∈ ls, '\n' ∉ l) : splitLines (joinLines ls) = ls := by
  induction ls with
  | nil => exact absurd rfl hne
  | cons l ls ih =>
    cases ls with
    | nil =>
      show splitLines (joinLines [l]) = [l]
      rw [show joinLines [l] = l from rfl]
      exact splitOn1_no_sep _ l (h l (by simp))
    | cons l2 ls2 =>
      rw [show joinLines (l :: l2 :: ls2) = l ++ '\n' :: joinLines (l2 :: ls2) from rfl]
      unfold splitLines
      rw [splitOn1_append, splitOn1_no_sep _ l (h l (by simp))]
      have h2 := ih (by simp) (fun x hx => h x (by simp [hx]))
      unfold splitLines at h2
      rw [h2]
      rfl

/-! ## Whitespace stripping: append, join, and emptiness -/

theorem wsOnly_reverse (l : List Char) : wsOnly l.reverse = wsOnly l := by
  unfold wsOnly
  exact List.all_reverse

theorem wsOnly_append (x y : List Char) : wsOnly (x ++ y) = (wsOnly x && wsOnly y) := by
  unfold wsOnly
  exact List.all_append

theorem dropWhile_append_not_all (p : Char → Bool) (l t : List Char)
    (h : l.all p = false) : (l ++ t).dropWhile p = l.dropWhile p ++ t := by
  induction l with
  | nil => simp at h
  | cons a l ih =>
    by_cases ha : p a = true
    · rw [List.all_cons, ha, Bool.true_and] at h
      rw [List.cons_append, List.dropWhile_cons, List.dropWhile_cons, if_pos ha, if_pos ha]
      exact ih h
    · rw [List.cons_append, List.dropWhile_cons, List.dropWhile_cons, if_neg ha, if_neg ha]
      rfl

theorem lstrip_append (l t : List Char) (h : wsOnly l = false) :
    lstripWs (l ++ t) = lstripWs l ++ t :=
  dropWhile_append_not_all pyIsSpace l t h

theorem rstrip_append (t l : List Char) (h : wsOnly l = false) :
    rstripWs (t ++ l) = t ++ rstripWs l := by
  unfold rstripWs
  rw [List.reverse_append, dropWhile_append_not_all pyIsSpace l.reverse t.reverse
    (by rw [show l.reverse.all pyIsSpace = wsOnly l.reverse from rfl, wsOnly_reverse]; exact h)]
  rw [List.reverse_append, List.reverse_reverse]

theorem wsOnly_lstrip (s : List Char) : wsOnly (lstripWs s) = wsOnly s := by
  have h : s.takeWhile pyIsSpace ++ lstripWs s = s :=
    List.takeWhile_append_dropWhile pyIsSpace s
  have htk : wsOnly (s.takeWhile pyIsSpace) = true :=
    List.all_eq_true.mpr (fun _ hc => List.mem_takeWhile_imp hc)
  conv_rhs => rw [← h]
  rw [wsOnly_append, htk, Bool.true_and]

theorem wsOnly_rstrip (s : List Char) : wsOnly (rstripWs s) = wsOnly s := by
  unfold rstripWs
  rw [wsOnly_reverse, show s.reverse.dropWhile pyIsSpace = lstripWs s.reverse from rfl,
    wsOnly_lstrip, wsOnly_reverse]

theorem rstrip_eq_nil_iff (s : List Char) : rstripWs s = [] ↔ wsOnly s = true := by
  unfold rstripWs
  rw [List.reverse_eq_nil_iff, List.dropWhile_eq_nil_iff]
  constructor
  · intro h
    exact List.all_eq_true.mpr (fun c hc => h c (List.mem_reverse.mpr hc))
  · intro h c hc
    exact List.all_eq_true.mp h c (List.mem_reverse.mp hc)

theorem pystrip_eq_nil_iff (s : List Char) : pystrip s = [] ↔ wsOnly s = true := by
  unfold pystrip
  rw [rstrip_eq_nil_iff, wsOnly_lstrip]

theorem wsOnly_false_of_mem (l : List Char) (c : Char) (hc : c ∈ l)
    (h : pyIsSpace c = false) : wsOnly l = false := by
  cases hw : wsOnly l with
  | false => rfl
  | true =>
    have hall := List.all_eq_true.mp hw c hc
    rw [h] at hall
    exact absurd hall Bool.false_ne_true

theorem wsOnly_false_exists (l : List Char) (h : wsOnly l = false) :
    ∃ c ∈ l, pyIsSpace c = false := by
  by_contra hc
  push_neg at hc
  have hall : wsOnly l = true := List.all_eq_true.mpr (fun c hcm => by
    cases hb : pyIsSpace c with
    | true => rfl
    | false => exact absurd hb (hc c hcm))
  rw [hall] at h
  exact Bool.noConfusion h

theorem lstrip_of_pystrip_self (s : List Char) (h : pystrip s = s) : lstripWs s = s := by
  have hsuf : lstripWs s <:+ s := List.dropWhile_suffix pyIsSpace
  apply hsuf.eq_of_length
  have h1 : (pystrip s).length ≤ (lstripWs s).length := by
    unfold pystrip rstripWs
    rw [List.length_reverse]
    calc ((lstripWs s).reverse.dropWhile pyIsSpace).length
        ≤ (lstripWs s).reverse.length := (List.dropWhile_sublist pyIsSpace).length_le
      _ = (lstripWs s).length := by rw [List.length_reverse]
  have h2 : (lstripWs s).length ≤ s.length := hsuf.length_le
  rw [h] at h1
  omega

theorem rstrip_of_pystrip_self (s : List Char) (h : pystrip s = s) : rstripWs s = s := by
  have hl := lstrip_of_pystrip_self s h
  unfold pystrip at h
  rw [hl] at h
  exact h

theorem getLast?_rstrip_not_ws (s : List Char) :
    ∀ c, (rstripWs s).getLast? = some c → pyIsSpace c = false := by
  intro c hc
  unfold rstripWs at hc
  rw [List.getLast?_reverse] at hc
  exact dropWhile_head_not pyIsSpace s.reverse c hc

theorem lstrip_eq_self (s : List Char)
    (h : ∀ c, s.head? = some c → pyIsSpace c = false) : lstripWs s = s :=
  dropWhile_eq_self pyIsSpace s h

theorem rstrip_eq_self (s : List Char)
    (h : ∀ c, s.getLast? = some c → pyIsSpace c = false) : rstripWs s = s := by
  unfold rstripWs
  rw [dropWhile_eq_self pyIsSpace s.reverse (fun c hc => h c (by
    rw [List.head?_reverse] at hc; exact hc)), List.reverse_reverse]

theorem pystrip_eq_self (s : List Char)
    (h1 : ∀ c, s.head? = some c → pyIsSpace c = false)
    (h2 : ∀ c, s.getLast? = some c → pyIsSpace c = false) : pystrip s = s := by
  unfold pystrip
  rw [lstrip_eq_self s h1, rstrip_eq_self s h2]

theorem pystrip_eq_self_of_all (s : List Char) (h : ∀ c ∈ s, pyIsSpace c = false) :
    pystrip s = s :=
  pystrip_eq_self s (fun c hc => h c (List.mem_of_mem_head? (Option.mem_def.mpr hc)))
    (fun c hc => h c (List.mem_of_mem_getLast? (Option.mem_def.mpr hc)))

theorem pystrip_infix (s : List Char) : ∃ u v, s = u ++ pystrip s ++ v := by
  obtain ⟨t, ht, _⟩ := rstrip_decomp (lstripWs s)
  refine ⟨s.takeWhile pyIsSpace, t, ?_⟩
  have hs : s.takeWhile pyIsSpace ++ lstripWs s = s :=
    List.takeWhile_append_dropWhile pyIsSpace s
  conv_lhs => rw [← hs]
  rw [ht, show rstripWs (lstripWs s) = pystrip s from rfl, List.append_assoc]

theorem mem_of_mem_lstrip (s : List Char) (c : Char) (h : c ∈ lstripWs s) : c ∈ s :=
  List.Sublist.mem h (List.dropWhile_sublist pyIsSpace)

theorem mem_of_mem_rstrip (s : List Char) (c : Char) (h : c ∈ rstripWs s) : c ∈ s := by
  unfold rstripWs at h
  rw [List.mem_reverse] at h
  exact List.mem_reverse.mp (List.Sublist.mem h (List.dropWhile_sublist pyIsSpace))

theorem mem_of_mem_pystrip (s : List Char) (c : Char) (h : c ∈ pystrip s) : c ∈ s :=
  mem_of_mem_lstrip s c (mem_of_mem_rstrip (lstripWs s) c h)

theorem rstrip_snoc_ws (y : List Char) (c : Char) (h : pyIsSpace c = true) :
    rstripWs (y ++ [c]) = rstripWs y := by
  unfold rstripWs
  rw [List.reverse_append, show ([c].reverse ++ y.reverse) = c :: y.reverse from by simp,
    List.dropWhile_cons, if_pos h]

theorem head?_append_ne (l t : List Char) (h : l ≠ []) : (l ++ t).head? = l.head? := by
  cases l with
  | nil => exact absurd rfl h
  | cons a l2 => rfl

theorem getLast?_append_ne (l t : List Char) (h : t ≠ []) : (l ++ t).getLast? = t.getLast? := by
  rw [List.getLast?_append]
  cases ht : t.getLast? with
  | none => exact absurd (List.getLast?_eq_none_iff.mp ht) h
  | some c => rfl

theorem joinLines_cons (l : List Char) (ls : List (List Char)) (h : ls ≠ []) :
    joinLines (l :: ls) = l ++ '\n' :: joinLines ls := by
  cases ls with
  | nil => exact absurd rfl h
  | cons l2 ls2 => rfl

/-! ## The arrow separator: soundness, completeness and leftmostness of `findSep` -/

theorem isPrefixOf_eq_true (p : List Char) : ∀ s, p.isPrefixOf s = true ↔ ∃ t, s = p ++ t := by
  induction p with
  | nil =>
    intro s
    constructor
    · intro _; exact ⟨s, rfl⟩
    · intro _
      cases s with
      | nil => rfl
      | cons b s2 => rfl
  | cons a p ih =>
    intro s
    cases s with
    | nil =>
      constructor
      · intro h
        exact absurd h (by rw [show (a :: p).isPrefixOf ([] : List Char) = false from rfl]; simp)
      · intro hex
        obtain ⟨t, ht⟩ := hex
        exact absurd ht (by simp)
    | cons b s =>
      rw [show (a :: p).isPrefixOf (b :: s) = (a == b && p.isPrefixOf s) from rfl]
      constructor
      · intro h
        rw [Bool.and_eq_true] at h
        obtain ⟨hab, hps⟩ := h
        obtain ⟨t, ht⟩ := (ih s).mp hps
        refine ⟨t, ?_⟩
        rw [List.cons_append, ht, beq_iff_eq.mp hab]
      · intro hex
        obtain ⟨t, ht⟩ := hex
        rw [List.cons_append] at ht
        obtain ⟨hb, hs⟩ := List.cons.inj ht
        rw [Bool.and_eq_true]
        exact ⟨beq_iff_eq.mpr hb.symm, (ih s).mpr ⟨t, hs⟩⟩

theorem findSep_sound (sep : List Char) :
    ∀ x a b, findSep sep x = some (a, b) → x = a ++ sep ++ b := by
  intro x
  induction x with
  | nil => intro a b h; rw [findSep] at h; exact Option.noConfusion h
  | cons c rest ih =>
    intro a b h
    rw [findSep] at h
    by_cases hp : sep.isPrefixOf (c :: rest) = true
    · rw [if_pos hp] at h
      obtain ⟨ha, hb⟩ := Prod.mk.inj (Option.some.inj h)
      obtain ⟨t, ht⟩ := (isPrefixOf_eq_true sep (c :: rest)).mp hp
      subst ha
      subst hb
      rw [ht, List.drop_left]
      rfl
    · rw [if_neg hp] at h
      cases hfs : findSep sep rest with
      | none => rw [hfs] at h; exact Option.noConfusion h
      | some ab =>
        obtain ⟨a2, b2⟩ := ab
        rw [hfs] at h
        obtain ⟨ha, hb⟩ := Prod.mk.inj (Option.some.inj h)
        subst ha
        subst hb
        rw [show (c :: a2) ++ sep ++ b2 = c :: (a2 ++ sep ++ b2) from rfl, ← ih a2 b2 hfs]

theorem findSep_complete (a b : List Char) :
    ∀ x, x = a ++ sepArrow ++ b → findSep sepArrow x ≠ none := by
  induction a with
  | nil =>
    intro x hx
    subst hx
    rw [show ([] : List Char) ++ sepArrow ++ b = ' ' :: ('-' :: '-' :: '>' :: ' ' :: b) from rfl]
    have hp : sepArrow.isPrefixOf (' ' :: ('-' :: '-' :: '>' :: ' ' :: b)) = true :=
      (isPrefixOf_eq_true sepArrow _).mpr ⟨b, rfl⟩
    rw [findSep, if_pos hp]
    simp
  | cons c a2 ih =>
    intro x hx
    subst hx
    rw [show ((c :: a2) ++ sepArrow ++ b) = c :: (a2 ++ sepArrow ++ b) from rfl, findSep]
    by_cases hp : sepArrow.isPrefixOf (c :: (a2 ++ sepArrow ++ b)) = true
    · rw [if_pos hp]; simp
    · rw [if_neg hp]
      cases hfs : findSep sepArrow (a2 ++ sepArrow ++ b) with
      | none => exact absurd hfs (ih _ rfl)
      | some ab =>
        obtain ⟨a3, b3⟩ := ab
        simp

theorem findSep_first (x : List Char) : ∀ a b, findSep sepArrow x = some (a, b) → NoArrowIn a := by
  induction x with
  | nil => intro a b h; rw [findSep] at h; exact Option.noConfusion h
  | cons c rest ih =>
    intro a b h
    rw [findSep] at h
    by_cases hp : sepArrow.isPrefixOf (c :: rest) = true
    · rw [if_pos hp] at h
      obtain ⟨ha, hb⟩ := Prod.mk.inj (Option.some.inj h)
      subst ha
      intro u v huv
      have hlen : ([] : List Char).length = (u ++ sepArrow ++ v).length :=
        congrArg List.length huv
      simp only [List.length_nil, List.length_append, sepArrow, List.length_cons] at hlen
      omega
    · rw [if_neg hp] at h
      cases hfs : findSep sepArrow rest with
      | none => rw [hfs] at h; exact Option.noConfusion h
      | some ab =>
        obtain ⟨a2, b2⟩ := ab
        rw [hfs] at h
        obtain ⟨ha, hb⟩ := Prod.mk.inj (Option.some.inj h)
        subst ha
        have hIH := ih a2 b2 hfs
        intro u v huv
        cases u with
        | nil =>
          apply hp
          apply (isPrefixOf_eq_true sepArrow _).mpr
          have hsound : rest = a2 ++ sepArrow ++ b2 := findSep_sound sepArrow rest a2 b2 hfs
          have hca : c :: a2 = sepArrow ++ v := huv.trans (by simp)
          refine ⟨v ++ sepArrow ++ b2, ?_⟩
          rw [show c :: rest = (c :: a2) ++ sepArrow ++ b2 from by rw [hsound]; rfl, hca]
          simp [List.append_assoc]
        | cons u0 u2 =>
          have h3 : c :: a2 = u0 :: (u2 ++ sepArrow ++ v) := by rw [huv]; rfl
          exact hIH u2 v (List.cons.inj h3).2

theorem findSep_none (s : List Char) (h : NoArrowIn s) : findSep sepArrow s = none := by
  cases hf : findSep sepArrow s with
  | none => rfl
  | some ab =>
    obtain ⟨a, b⟩ := ab
    exact absurd (findSep_sound sepArrow s a b hf) (h a b)

theorem noArrowIn_of_none (s : List Char) (h : findSep sepArrow s = none) : NoArrowIn s :=
  fun a b hab => findSep_complete a b s hab h

theorem sep_prefix_ends (st en : List Char)
    (hp : sepArrow.isPrefixOf (st ++ sepArrow ++ en) = true) (hne : st ≠ [])
    (hocc : NoArrowIn st) : ∃ s₀, st = s₀ ++ arrTail := by
  obtain ⟨r, hr⟩ := (isPrefixOf_eq_true sepArrow _).mp hp
  have hx : st ++ sepArrow ++ en = st ++ (sepArrow ++ en) := List.append_assoc st sepArrow en
  have h5 : (st ++ (sepArrow ++ en)).take 5 = sepArrow := by
    rw [← hx, hr]
    rfl
  rcases Nat.lt_or_ge st.length 5 with hlt | hge
  · have hself : st.take 5 = st := List.take_of_length_le (by omega)
    have hkey : (st ++ (sepArrow ++ en)).take 5 = st ++ sepArrow.take (5 - st.length) := by
      rw [List.take_append_eq_append_take, hself, List.take_append_eq_append_take,
        show (5 - st.length - sepArrow.length) = 0 from by
          rw [show sepArrow.length = 5 from rfl]; omega,
        List.take_zero, List.append_nil]
    have hkey2 : sepArrow = st ++ sepArrow.take (5 - st.length) := h5.symm.trans hkey
    have hlen1 : 1 ≤ st.length := by
      cases st with
      | nil => exact absurd rfl hne
      | cons _ _ => simp
    have hst : st = sepArrow.take st.length := by
      have h6 := congrArg (List.take st.length) hkey2
      rw [List.take_append_eq_append_take, List.take_length, Nat.sub_self, List.take_zero,
        List.append_nil] at h6
      exact h6.symm
    have hcase : st.length = 4 ∨ st.length = 3 ∨ st.length = 2 ∨ st.length = 1 := by omega
    rcases hcase with h4 | h3 | h2 | h1
    · exact ⟨[], by rw [hst, h4]; rfl⟩
    · rw [h3] at hst hkey2
      rw [hst] at hkey2
      exact absurd hkey2 (by decide)
    · rw [h2] at hst hkey2
      rw [hst] at hkey2
      exact absurd hkey2 (by decide)
    · rw [h1] at hst hkey2
      rw [hst] at hkey2
      exact absurd hkey2 (by decide)
  · have hst5 : st.take 5 = sepArrow := by
      rw [← h5, List.take_append_eq_append_take,
        show 5 - st.length = 0 from by omega, List.take_zero, List.append_nil]
    exfalso
    apply hocc [] (st.drop 5)
    rw [← hst5]
    rw [show ([] : List Char) ++ st.take 5 ++ st.drop 5 = st.take 5 ++ st.drop 5 from rfl,
      List.take_append_drop]

theorem findSep_canonical (st en : List Char) (hocc : NoArrowIn st)
    (htail : ∀ s₀, st ≠ s₀ ++ arrTail) :
    findSep sepArrow (st ++ sepArrow ++ en) = some (st, en) := by
  induction st with
  | nil =>
    rw [show ([] : List Char) ++ sepArrow ++ en = ' ' :: ('-' :: '-' :: '>' :: ' ' :: en) from rfl,
      findSep, if_pos (show sepArrow.isPrefixOf (' ' :: '-' :: '-' :: '>' :: ' ' :: en) = true
        from (isPrefixOf_eq_true sepArrow _).mpr ⟨en, rfl⟩)]
    rfl
  | cons c st2 ih =>
    have hocc2 : NoArrowIn st2 := by
      intro a b hab
      exact hocc (c :: a) b (by rw [hab]; rfl)
    have htail2 : ∀ s₀, st2 ≠ s₀ ++ arrTail := by
      intro s₀ hs
      exact htail (c :: s₀) (by rw [hs]; rfl)
    rw [show (c :: st2) ++ sepArrow ++ en = c :: (st2 ++ sepArrow ++ en) from rfl, findSep]
    have hp : sepArrow.isPrefixOf (c :: (st2 ++ sepArrow ++ en)) = false := by
      cases hb : sepArrow.isPrefixOf (c :: (st2 ++ sepArrow ++ en)) with
      | false => rfl
      | true =>
        exfalso
        have hpf : sepArrow.isPrefixOf ((c :: st2) ++ sepArrow ++ en) = true := by
          rw [show (c :: st2) ++ sepArrow ++ en = c :: (st2 ++ sepArrow ++ en) from rfl]
          exact hb
        obtain ⟨s₀, hs⟩ := sep_prefix_ends (c :: st2) en hpf (by simp) hocc
        exact htail s₀ hs
    rw [if_neg (by rw [hp]; exact Bool.false_ne_true)]
    rw [ih hocc2 htail2]

theorem splitArrow_ne_nil (x : List Char) : splitArrow x ≠ [] := by
  rw [splitArrow_eq]
  cases hf : findSep sepArrow x with
  | none => simp
  | some ab =>
    obtain ⟨a, b⟩ := ab
    simp

theorem splitArrow_noOcc (s : List Char) (h : NoArrowIn s) : splitArrow s = [s] := by
  rw [splitArrow_eq, findSep_none s h]

theorem splitArrow_two (l st en : List Char) (h : splitArrow l = [st, en]) :
    l = st ++ sepArrow ++ en ∧ NoArrowIn st ∧ NoArrowIn en := by
  rw [splitArrow_eq] at h
  cases hf : findSep sepArrow l with
  | none =>
    rw [hf] at h
    exact absurd (List.cons.inj h).2 (by simp)
  | some ab =>
    obtain ⟨a, b⟩ := ab
    rw [hf] at h
    obtain ⟨ha, hb⟩ := List.cons.inj h
    subst ha
    have hben : b = en ∧ NoArrowIn b := by
      rw [splitArrow_eq] at hb
      cases hf2 : findSep sepArrow b with
      | none =>
        rw [hf2] at hb
        exact ⟨(List.cons.inj hb).1, noArrowIn_of_none b hf2⟩
      | some ab2 =>
        obtain ⟨a2, b2⟩ := ab2
        rw [hf2] at hb
        exact absurd (List.cons.inj hb).2 (splitArrow_ne_nil b2)
    obtain ⟨hbe, hno⟩ := hben
    subst hbe
    exact ⟨findSep_sound sepArrow l a b hf, findSep_first l a b hf, hno⟩

theorem splitArrow_canonical (st en : List Char) (h1 : NoArrowIn st)
    (h2 : ∀ s₀, st ≠ s₀ ++ arrTail) (h3 : NoArrowIn en) :
    splitArrow (st ++ sepArrow ++ en) = [st, en] := by
  rw [splitArrow_eq, findSep_canonical st en h1 h2]
  show st :: splitArrow en = [st, en]
  rw [splitArrow_noOcc en h3]

theorem noArrowIn_parts (s u t v : List Char) (h : NoArrowIn s) (hs : s = u ++ t ++ v) :
    NoArrowIn t := by
  intro a b hab
  apply h (u ++ a) (b ++ v)
  rw [hs, hab]
  simp [List.append_assoc]

theorem noArrowIn_pystrip (s : List Char) (h : NoArrowIn s) : NoArrowIn (pystrip s) := by
  obtain ⟨u, v, huv⟩ := pystrip_infix s
  exact noArrowIn_parts s u (pystrip s) v h huv

/-! ## Decimal rendering and `int()` parsing -/

theorem digitsGo_sound (fuel : Nat) : ∀ n, n ≤ fuel → Nat.ofDigits 10 (digitsGo fuel n) = n := by
  induction fuel with
  | zero =>
    intro n hn
    rw [Nat.le_zero] at hn
    subst hn
    rfl
  | succ fuel ih =>
    intro n hn
    rw [digitsGo]
    by_cases h0 : n = 0
    · rw [if_pos h0, h0]
      rfl
    · rw [if_neg h0, Nat.ofDigits_cons, ih (n / 10) (by omega)]
      omega

theorem digitsGo_lt (fuel : Nat) : ∀ n, ∀ d ∈ digitsGo fuel n, d < 10 := by
  induction fuel with
  | zero => intro n d hd; rw [digitsGo] at hd; exact absurd hd (by simp)
  | succ fuel ih =>
    intro n d hd
    rw [digitsGo] at hd
    by_cases h0 : n = 0
    · rw [if_pos h0] at hd
      exact absurd hd (by simp)
    · rw [if_neg h0] at hd
      rcases List.mem_cons.mp hd with rfl | hd2
      · exact Nat.mod_lt n (by omega)
      · exact ih (n / 10) d hd2

theorem natDigits_ne_nil (n : Nat) (h : n ≠ 0) : natDigits n ≠ [] := by
  unfold natDigits
  cases n with
  | zero => exact absurd rfl h
  | succ m =>
    rw [digitsGo, if_neg h]
    simp

theorem digitCh_facts (d : Nat) (h : d < 10) :
    chDigit (digitCh d) = d ∧ (digitCh d).isDigit = true ∧ pyIsSpace (digitCh d) = false ∧
    digitCh d ≠ '-' ∧ digitCh d ≠ '+' ∧ digitCh d ≠ '\n' := by
  interval_cases d <;> decide

theorem natToStr_ne_nil (n : Nat) : natToStr n ≠ [] := by
  unfold natToStr
  by_cases h0 : n = 0
  · rw [if_pos h0]; simp
  · rw [if_neg h0]
    cases hm : natDigits n with
    | nil => exact absurd hm (natDigits_ne_nil n h0)
    | cons d ds => simp

theorem mem_natToStr (n : Nat) : ∀ c ∈ natToStr n, c.isDigit = true := by
  unfold natToStr
  by_cases h0 : n = 0
  · rw [if_pos h0]
    intro c hc
    rw [List.mem_singleton] at hc
    subst hc
    decide
  · rw [if_neg h0]
    intro c hc
    rw [List.mem_reverse, List.mem_map] at hc
    obtain ⟨d, hd, rfl⟩ := hc
    exact (digitCh_facts d (digitsGo_lt n n d hd)).2.1

theorem digit_not_ws (c : Char) (h : c.isDigit = true) : pyIsSpace c = false := by
  cases hb : pyIsSpace c with
  | false => rfl
  | true =>
    exfalso
    unfold pyIsSpace at hb
    simp only [Bool.or_eq_true, decide_eq_true_eq] at hb
    rcases hb with ((((h1 | h1) | h1) | h1) | h1) | h1 <;> (subst h1; exact absurd h (by decide))

theorem intToStr_ne_nil (n : Int) : intToStr n ≠ [] := by
  unfold intToStr
  by_cases hn : n < 0
  · rw [if_pos hn]; simp
  · rw [if_neg hn]; exact natToStr_ne_nil n.natAbs

theorem mem_intToStr (n : Int) : ∀ c ∈ intToStr n, c = '-' ∨ c.isDigit = true := by
  unfold intToStr
  by_cases hn : n < 0
  · rw [if_pos hn]
    intro c hc
    rcases List.mem_cons.mp hc with rfl | hc2
    · exact Or.inl rfl
    · exact Or.inr (mem_natToStr n.natAbs c hc2)
  · rw [if_neg hn]
    intro c hc
    exact Or.inr (mem_natToStr n.natAbs c hc)

theorem intToStr_not_ws (n : Int) : ∀ c ∈ intToStr n, pyIsSpace c = false := by
  intro c hc
  rcases mem_intToStr n c hc with rfl | hd
  · decide
  · exact digit_not_ws c hd

theorem intToStr_no_nl (n : Int) : '\n' ∉ intToStr n := by
  intro hc
  rcases mem_intToStr n '\n' hc with h | h
  · exact absurd h (by decide)
  · exact absurd h (by decide)

theorem wsOnly_intToStr (n : Int) : wsOnly (intToStr n) = false := by
  obtain ⟨c, hc⟩ := List.exists_mem_of_ne_nil (intToStr n) (intToStr_ne_nil n)
  exact wsOnly_false_of_mem _ c hc (intToStr_not_ws n c hc)

theorem digitsVal_natToStr (n : Nat) : digitsVal (natToStr n) = some n := by
  by_cases h0 : n = 0
  · subst h0; decide
  · have hne : natDigits n ≠ [] := natDigits_ne_nil n h0
    have hlt : ∀ d ∈ natDigits n, d < 10 := digitsGo_lt n n
    rw [natToStr, if_neg h0]
    have hcond : (((natDigits n).map digitCh).reverse ≠ [] ∧
        (((natDigits n).map digitCh).reverse).all Char.isDigit = true) := by
      constructor
      · intro hc
        rw [List.reverse_eq_nil_iff] at hc
        cases hm : natDigits n with
        | nil => exact hne hm
        | cons d ds => rw [hm] at hc; simp at hc
      · rw [List.all_eq_true]
        intro c hc
        rw [List.mem_reverse, List.mem_map] at hc
        obtain ⟨d, hd, rfl⟩ := hc
        exact (digitCh_facts d (hlt d hd)).2.1
    rw [digitsVal, if_pos hcond]
    congr 1
    rw [List.map_reverse, List.reverse_reverse, List.map_map]
    rw [show (natDigits n).map (chDigit ∘ digitCh) = (natDigits n).map id from
      List.map_congr_left (fun d hd => (digitCh_facts d (hlt d hd)).1), List.map_id]
    exact digitsGo_sound n n le_rfl

theorem pyInt_intToStr (n : Int) : pyInt (intToStr n) = some n := by
  by_cases hn : n < 0
  · rw [show intToStr n = '-' :: natToStr n.natAbs from by rw [intToStr, if_pos hn]]
    rw [pyInt]
    have hstrip : pystrip ('-' :: natToStr n.natAbs) = '-' :: natToStr n.natAbs := by
      apply pystrip_eq_self_of_all
      intro c hc
      rcases List.mem_cons.mp hc with rfl | hc2
      · decide
      · exact digit_not_ws c (mem_natToStr n.natAbs c hc2)
    rw [hstrip]
    show (digitsVal (natToStr n.natAbs)).map (fun v => -(v : Int)) = some n
    rw [digitsVal_natToStr]
    show some (-(n.natAbs : Int)) = some n
    congr 1
    omega
  · rw [show intToStr n = natToStr n.natAbs from by rw [intToStr, if_neg hn]]
    rw [pyInt]
    have hstrip : pystrip (natToStr n.natAbs) = natToStr n.natAbs :=
      pystrip_eq_self_of_all _ (fun c hc => digit_not_ws c (mem_natToStr n.natAbs c hc))
    rw [hstrip]
    split
    · rename_i ds heq
      exact absurd (mem_natToStr n.natAbs '-' (by rw [heq]; simp)) (by decide)
    · rename_i ds heq
      exact absurd (mem_natToStr n.natAbs '+' (by rw [heq]; simp)) (by decide)
    · rw [digitsVal_natToStr]
      show some ((n.natAbs : Int)) = some n
      congr 1
      omega

/-! ## Block structure: stripping a joined block and regrouping blocks -/

theorem stripLast_ne_nil (ls : List (List Char)) (h : ls ≠ []) : stripLast ls ≠ [] := by
  cases ls with
  | nil => exact absurd rfl h
  | cons l ls2 =>
    cases ls2 with
    | nil => simp [stripLast]
    | cons l2 ls3 => simp [stripLast]

theorem mem_stripLast (ls : List (List Char)) :
    ∀ l ∈ stripLast ls, l ∈ ls ∨ ∃ l0 ∈ ls, l = rstripWs l0 := by
  induction ls with
  | nil => intro l hl; exact absurd hl (by simp [stripLast])
  | cons a ls2 ih =>
    cases ls2 with
    | nil =>
      intro l hl
      rw [show stripLast [a] = [rstripWs a] from rfl, List.mem_singleton] at hl
      exact Or.inr ⟨a, by simp, hl⟩
    | cons b ls3 =>
      intro l hl
      rw [show stripLast (a :: b :: ls3) = a :: stripLast (b :: ls3) from rfl] at hl
      rcases List.mem_cons.mp hl with rfl | hl2
      · exact Or.inl (by simp)
      · rcases ih l hl2 with hm | hex
        · exact Or.inl (by simp [hm])
        · obtain ⟨l0, hl0, he⟩ := hex
          exact Or.inr ⟨l0, by simp [hl0], he⟩

theorem mem_stripFirst (ls : List (List Char)) :
    ∀ l ∈ stripFirst ls, l ∈ ls ∨ ∃ l0 ∈ ls, l = lstripWs l0 := by
  cases ls with
  | nil => intro l hl; exact absurd hl (by simp [stripFirst])
  | cons a ls2 =>
    intro l hl
    rw [show stripFirst (a :: ls2) = lstripWs a :: ls2 from rfl] at hl
    rcases List.mem_cons.mp hl with rfl | hl2
    · exact Or.inr ⟨a, by simp, rfl⟩
    · exact Or.inl (by simp [hl2])

theorem lines_good_strip (ls : List (List Char))
    (h : ∀ l ∈ ls, '\n' ∉ l ∧ wsOnly l = false) :
    ∀ l ∈ stripLast (stripFirst ls), '\n' ∉ l ∧ wsOnly l = false := by
  have hsf : ∀ l ∈ stripFirst ls, '\n' ∉ l ∧ wsOnly l = false := by
    intro l2 hl2
    rcases mem_stripFirst ls l2 hl2 with hm | hex
    · exact h l2 hm
    · obtain ⟨l0, hl0, rfl⟩ := hex
      obtain ⟨h1, h2⟩ := h l0 hl0
      exact ⟨fun hc => h1 (mem_of_mem_lstrip l0 '\n' hc), by rw [wsOnly_lstrip]; exact h2⟩
  intro l hl
  rcases mem_stripLast _ l hl with hm | hex
  · exact hsf l hm
  · obtain ⟨l0, hl0, rfl⟩ := hex
    obtain ⟨h1, h2⟩ := hsf l0 hl0
    exact ⟨fun hc => h1 (mem_of_mem_rstrip l0 '\n' hc), by rw [wsOnly_rstrip]; exact h2⟩

theorem wsOnly_joinLines_cons (l : List Char) (ls : List (List Char)) (h : wsOnly l = false) :
    wsOnly (joinLines (l :: ls)) = false := by
  obtain ⟨c, hc, hcw⟩ := wsOnly_false_exists l h
  cases ls with
  | nil => exact wsOnly_false_of_mem _ c hc hcw
  | cons l2 ls2 =>
    rw [joinLines_cons l (l2 :: ls2) (by simp)]
    exact wsOnly_false_of_mem _ c (by rw [List.mem_append]; exact Or.inl hc) hcw

theorem lstrip_joinLines (l : List Char) (ls : List (List Char)) (h : wsOnly l = false) :
    lstripWs (joinLines (l :: ls)) = joinLines (lstripWs l :: ls) := by
  cases ls with
  | nil => rfl
  | cons l2 ls2 =>
    rw [joinLines_cons l (l2 :: ls2) (by simp), joinLines_cons (lstripWs l) (l2 :: ls2) (by simp)]
    exact lstrip_append l _ h

theorem rstrip_joinLines (ls : List (List Char)) (hne : ls ≠ [])
    (h : ∀ l ∈ ls, wsOnly l = false) :
    rstripWs (joinLines ls) = joinLines (stripLast ls) := by
  induction ls with
  | nil => exact absurd rfl hne
  | cons l ls2 ih =>
    cases ls2 with
    | nil => rfl
    | cons l2 ls3 =>
      have hJ : wsOnly (joinLines (l2 :: ls3)) = false :=
        wsOnly_joinLines_cons l2 ls3 (h l2 (by simp))
      rw [joinLines_cons l (l2 :: ls3) (by simp)]
      rw [show l ++ '\n' :: joinLines (l2 :: ls3) = (l ++ ['\n']) ++ joinLines (l2 :: ls3) from
        by simp]
      rw [rstrip_append _ _ hJ, ih (by simp) (fun x hx => h x (by simp [hx]))]
      rw [show stripLast (l :: l2 :: ls3) = l :: stripLast (l2 :: ls3) from rfl]
      rw [joinLines_cons l _ (stripLast_ne_nil (l2 :: ls3) (by simp))]
      simp

theorem splitLines_strip_joinLines (ls : List (List Char)) (hne : ls ≠ [])
    (h : ∀ l ∈ ls, '\n' ∉ l ∧ wsOnly l = false) :
    splitLines (pystrip (joinLines ls)) = stripLast (stripFirst ls) := by
  cases ls with
  | nil => exact absurd rfl hne
  | cons l ls2 =>
    unfold pystrip
    rw [lstrip_joinLines l ls2 (h l (by simp)).2]
    have hall2 : ∀ x ∈ lstripWs l :: ls2, wsOnly x = false := by
      intro x hx
      rcases List.mem_cons.mp hx with rfl | hx2
      · rw [wsOnly_lstrip]; exact (h l (by simp)).2
      · exact (h x (by simp [hx2])).2
    rw [rstrip_joinLines (lstripWs l :: ls2) (by simp) hall2]
    rw [show stripFirst (l :: ls2) = lstripWs l :: ls2 from rfl]
    apply splitLines_joinLines
    · exact stripLast_ne_nil _ (by simp)
    · intro x hx
      exact (lines_good_strip (l :: ls2) h x hx).1

theorem groupBlocks_cons_ws (a : List Char) (ls : List (List Char)) (h : wsOnly a = true) :
    groupBlocks (a :: ls) = groupBlocks ls := by
  rw [groupBlocks.eq_def]
  change (if wsOnly a = true then groupBlocks ls else _) = _
  rw [if_pos h]

theorem groupBlocks_single (a : List Char) (h : wsOnly a = false) : groupBlocks [a] = [[a]] := by
  rw [groupBlocks.eq_def]
  change (if wsOnly a = true then groupBlocks [] else _) = _
  rw [if_neg (by rw [h]; exact Bool.false_ne_true)]

theorem groupBlocks_cons_cons_ws (a r : List Char) (rest2 : List (List Char))
    (ha : wsOnly a = false) (hr : wsOnly r = true) :
    groupBlocks (a :: r :: rest2) = [a] :: groupBlocks (r :: rest2) := by
  rw [groupBlocks.eq_def]
  change (if wsOnly a = true then groupBlocks (r :: rest2) else _) = _
  rw [if_neg (by rw [ha]; exact Bool.false_ne_true)]
  change (if wsOnly r = true then [a] :: groupBlocks (r :: rest2)
    else match groupBlocks (r :: rest2) with
      | g :: gs => (a :: g) :: gs
      | [] => [[a]]) = _
  rw [if_pos hr]

theorem groupBlocks_cons_cons (a r : List Char) (rest2 : List (List Char))
    (ha : wsOnly a = false) (hr : wsOnly r = false) :
    groupBlocks (a :: r :: rest2) =
      match groupBlocks (r :: rest2) with
      | g :: gs => (a :: g) :: gs
      | [] => [[a]] := by
  rw [groupBlocks.eq_def]
  change (if wsOnly a = true then groupBlocks (r :: rest2) else _) = _
  rw [if_neg (by rw [ha]; exact Bool.false_ne_true)]
  change (if wsOnly r = true then [a] :: groupBlocks (r :: rest2)
    else match groupBlocks (r :: rest2) with
      | g :: gs => (a :: g) :: gs
      | [] => [[a]]) = _
  rw [if_neg (by rw [hr]; exact Bool.false_ne_true)]

theorem groupBlocks_mem (ls : List (List Char)) :
    ∀ g ∈ groupBlocks ls, g ≠ [] ∧ ∀ l ∈ g, wsOnly l = false ∧ l ∈ ls := by
  induction ls with
  | nil =>
    intro g hg
    exact absurd hg (by rw [show groupBlocks ([] : List (List Char)) = [] from rfl]; simp)
  | cons a rest ih =>
    intro g hg
    by_cases ha : wsOnly a = true
    · rw [groupBlocks_cons_ws a rest ha] at hg
      obtain ⟨h1, h2⟩ := ih g hg
      exact ⟨h1, fun l hl => ⟨(h2 l hl).1, by simp [(h2 l hl).2]⟩⟩
    · have haf : wsOnly a = false := by
        cases hb : wsOnly a
        · rfl
        · exact absurd hb ha
      cases rest with
      | nil =>
        rw [groupBlocks_single a haf, List.mem_singleton] at hg
        subst hg
        refine ⟨by simp, fun l hl => ?_⟩
        rw [List.mem_singleton] at hl
        subst hl
        exact ⟨haf, by simp⟩
      | cons r rest2 =>
        by_cases hr : wsOnly r = true
        · rw [groupBlocks_cons_cons_ws a r rest2 haf hr] at hg
          rcases List.mem_cons.mp hg with rfl | hg2
          · refine ⟨by simp, fun l hl => ?_⟩
            rw [List.mem_singleton] at hl
            subst hl
            exact ⟨haf, by simp⟩
          · obtain ⟨h1, h2⟩ := ih g hg2
            exact ⟨h1, fun l hl => ⟨(h2 l hl).1, by simp [(h2 l hl).2]⟩⟩
        · have hrf : wsOnly r = false := by
            cases hb : wsOnly r
            · rfl
            · exact absurd hb hr
          rw [groupBlocks_cons_cons a r rest2 haf hrf] at hg
          cases hgb : groupBlocks (r :: rest2) with
          | nil =>
            rw [hgb] at hg
            replace hg : g ∈ [[a]] := hg
            rw [List.mem_singleton] at hg
            subst hg
            refine ⟨by simp, fun l hl => ?_⟩
            rw [List.mem_singleton] at hl
            subst hl
            exact ⟨haf, by simp⟩
          | cons g0 gs =>
            rw [hgb] at hg
            replace hg : g ∈ (a :: g0) :: gs := hg
            rcases List.mem_cons.mp hg with rfl | hg2
            · have hg0 := ih g0 (by rw [hgb]; simp)
              refine ⟨by simp, fun l hl => ?_⟩
              rcases List.mem_cons.mp hl with rfl | hl2
              · exact ⟨haf, by simp⟩
              · exact ⟨(hg0.2 l hl2).1, by simp [(hg0.2 l hl2).2]⟩
            · have hgm := ih g (by rw [hgb]; simp [hg2])
              exact ⟨hgm.1, fun l hl => ⟨(hgm.2 l hl).1, by simp [(hgm.2 l hl).2]⟩⟩

theorem groupBlocks_all (ls : List (List Char)) (hne : ls ≠ [])
    (h : ∀ l ∈ ls, wsOnly l = false) : groupBlocks ls = [ls] := by
  induction ls with
  | nil => exact absurd rfl hne
  | cons a rest ih =>
    have ha := h a (by simp)
    cases rest with
    | nil => exact groupBlocks_single a ha
    | cons r rest2 =>
      rw [groupBlocks_cons_cons a r rest2 ha (h r (by simp)),
        ih (by simp) (fun x hx => h x (by simp [hx]))]

theorem groupBlocks_sep (g rest : List (List Char)) (hne : g ≠ [])
    (h : ∀ l ∈ g, wsOnly l = false) :
    groupBlocks (g ++ [] :: rest) = g :: groupBlocks rest := by
  induction g with
  | nil => exact absurd rfl hne
  | cons a g2 ih =>
    have ha := h a (by simp)
    cases g2 with
    | nil =>
      rw [List.cons_append, List.nil_append]
      rw [groupBlocks_cons_cons_ws a [] rest ha rfl]
      rw [groupBlocks_cons_ws [] rest rfl]
    | cons b g3 =>
      rw [List.cons_append]
      rw [show (b :: g3) ++ [] :: rest = b :: (g3 ++ [] :: rest) from rfl]
      rw [groupBlocks_cons_cons a b (g3 ++ [] :: rest) ha (h b (by simp))]
      have hih : groupBlocks (b :: (g3 ++ [] :: rest)) = (b :: g3) :: groupBlocks rest := by
        have h2 := ih (by simp) (fun x hx => h x (by simp [hx]))
        rw [show (b :: g3) ++ [] :: rest = b :: (g3 ++ [] :: rest) from rfl] at h2
        exact h2
      rw [hih]

theorem eLines_props (e : SRTEntry) (hG : GoodEntry e) :
    ∀ l ∈ eLines e, wsOnly l = false ∧ '\n' ∉ l := by
  obtain ⟨hTr, hTs, hTne, hTl, hSs, hSn, hSo, hEs, hEn, hEo⟩ := hG
  intro l hl
  rw [eLines] at hl
  rcases List.mem_cons.mp hl with rfl | hl2
  · exact ⟨wsOnly_intToStr e.index, intToStr_no_nl e.index⟩
  · rcases List.mem_cons.mp hl2 with rfl | hl3
    · constructor
      · apply wsOnly_false_of_mem _ '-'
        · rw [List.mem_append]
          left
          rw [List.mem_append]
          right
          simp [sepArrow]
        · decide
      · intro hc
        rw [List.mem_append] at hc
        rcases hc with hc1 | hc2
        · rw [List.mem_append] at hc1
          rcases hc1 with hc3 | hc4
          · exact hSn hc3
          · exact absurd hc4 (by decide)
        · exact hEn hc2
    · exact ⟨hTl l hl3, mem_splitOn1 '\n' e.text l hl3⟩

theorem goodLines_cons (e : SRTEntry) (es : List SRTEntry) (h : es ≠ []) :
    goodLines (e :: es) = eLines e ++ [] :: goodLines es := by
  cases es with
  | nil => exact absurd rfl h
  | cons e2 es2 =>
    show eLines e ++ [[]] ++ goodLines (e2 :: es2) = eLines e ++ [] :: goodLines (e2 :: es2)
    simp

theorem groupBlocks_goodLines (es : List SRTEntry) (h : ∀ e ∈ es, GoodEntry e) :
    groupBlocks (goodLines es) = es.map eLines := by
  induction es with
  | nil => rfl
  | cons e es2 ih =>
    have hel : ∀ l ∈ eLines e, wsOnly l = false :=
      fun l hl => (eLines_props e (h e (by simp)) l hl).1
    have hene : eLines e ≠ [] := by rw [eLines]; simp
    cases es2 with
    | nil =>
      show groupBlocks (eLines e) = [eLines e]
      exact groupBlocks_all (eLines e) hene hel
    | cons e2 es3 =>
      rw [goodLines_cons e (e2 :: es3) (by simp)]
      rw [groupBlocks_sep (eLines e) (goodLines (e2 :: es3)) hene hel]
      rw [ih (fun x hx => h x (by simp [hx]))]
      rfl

/-! ## Every entry produced by `parse_srt` is well-shaped -/

theorem parseBlock_eq (g : List (List Char)) (l0 l1 l2 : List Char) (rest : List (List Char))
    (h : splitLines (pystrip (joinLines g)) = l0 :: l1 :: l2 :: rest) :
    parseBlock g =
      match pyInt l0 with
      | none => none
      | some idx =>
        match splitArrow l1 with
        | [st, en] => some (mkEntry idx (pystrip st) (pystrip en) (joinLines (l2 :: rest)))
        | _ => none := by
  rw [parseBlock.eq_def, h]

theorem parse_good (content : List Char) : ∀ e ∈ parse_srt content, GoodEntry e := by
  intro e he
  rw [parse_srt, List.mem_filterMap] at he
  obtain ⟨g, hg, hpb⟩ := he
  obtain ⟨hgne, hglines⟩ := groupBlocks_mem _ g hg
  have hprops : ∀ l ∈ g, '\n' ∉ l ∧ wsOnly l = false := by
    intro l hl
    exact ⟨mem_splitOn1 '\n' _ l (hglines l hl).2, (hglines l hl).1⟩
  have hSB := splitLines_strip_joinLines g hgne hprops
  have hlines2 := lines_good_strip g hprops
  cases hL : stripLast (stripFirst g) with
  | nil =>
    rw [parseBlock.eq_def, hSB, hL] at hpb
    exact Option.noConfusion hpb
  | cons l0 t1 =>
    cases t1 with
    | nil =>
      rw [parseBlock.eq_def, hSB, hL] at hpb
      exact Option.noConfusion hpb
    | cons l1 t2 =>
      cases t2 with
      | nil =>
        rw [parseBlock.eq_def, hSB, hL] at hpb
        exact Option.noConfusion hpb
      | cons l2 rest =>
        rw [parseBlock_eq g l0 l1 l2 rest (hSB.trans hL)] at hpb
        split at hpb
        · exact Option.noConfusion hpb
        · rename_i idx hInt
          split at hpb
          · rename_i st en hArr
            have he2 : e = mkEntry idx (pystrip st) (pystrip en) (joinLines (l2 :: rest)) :=
              (Option.some.inj hpb).symm
            subst he2
            obtain ⟨hl1eq, hnoSt, hnoEn⟩ := splitArrow_two l1 st en hArr
            have hmem3 : ∀ l ∈ l2 :: rest, '\n' ∉ l ∧ wsOnly l = false := by
              intro l hl
              apply hlines2
              rw [hL]
              exact List.mem_cons_of_mem _ (List.mem_cons_of_mem _ hl)
            have hl1props : '\n' ∉ l1 ∧ wsOnly l1 = false := by
              apply hlines2
              rw [hL]
              simp
            refine ⟨rfl, ?_, ?_, ?_, ?_, ?_, ?_, ?_, ?_, ?_⟩
            · show pystrip (pystrip (joinLines (l2 :: rest))) = pystrip (joinLines (l2 :: rest))
              exact pystrip_idem _
            · show pystrip (joinLines (l2 :: rest)) ≠ []
              intro hc
              rw [pystrip_eq_nil_iff] at hc
              have hjw : wsOnly (joinLines (l2 :: rest)) = false :=
                wsOnly_joinLines_cons l2 rest (hmem3 l2 (by simp)).2
              rw [hjw] at hc
              exact Bool.noConfusion hc
            · show ∀ l ∈ splitLines (pystrip (joinLines (l2 :: rest))), wsOnly l = false
              rw [splitLines_strip_joinLines (l2 :: rest) (by simp) hmem3]
              intro l hl
              exact (lines_good_strip (l2 :: rest) hmem3 l hl).2
            · show pystrip (pystrip st) = pystrip st
              exact pystrip_idem st
            · show '\n' ∉ pystrip st
              intro hc
              have hst : '\n' ∈ st := mem_of_mem_pystrip st '\n' hc
              have hmem : '\n' ∈ l1 := by
                rw [hl1eq, List.mem_append]
                left
                rw [List.mem_append]
                left
                exact hst
              exact hl1props.1 hmem
            · exact noArrowIn_pystrip st hnoSt
            · show pystrip (pystrip en) = pystrip en
              exact pystrip_idem en
            · show '\n' ∉ pystrip en
              intro hc
              have hen : '\n' ∈ en := mem_of_mem_pystrip en '\n' hc
              have hmem : '\n' ∈ l1 := by
                rw [hl1eq, List.mem_append]
                right
                exact hen
              exact hl1props.1 hmem
            · exact noArrowIn_pystrip en hnoEn
          · exact Option.noConfusion hpb

/-! ## Structure of the serialized document -/

theorem entry_body_split (e : SRTEntry) (hG : GoodEntry e) :
    splitLines (intToStr e.index ++ '\n' ::
      ((e.start_time ++ sepArrow ++ e.end_time) ++ '\n' :: e.text)) = eLines e := by
  obtain ⟨hTr, hTs, hTne, hTl, hSs, hSn, hSo, hEs, hEn, hEo⟩ := hG
  have hAnl : '\n' ∉ intToStr e.index := intToStr_no_nl e.index
  have hBnl : '\n' ∉ (e.start_time ++ sepArrow ++ e.end_time) := by
    intro hc
    rw [List.mem_append] at hc
    rcases hc with hc1 | hc2
    · rw [List.mem_append] at hc1
      rcases hc1 with hc3 | hc4
      · exact hSn hc3
      · exact absurd hc4 (by decide)
    · exact hEn hc2
  unfold splitLines
  rw [splitOn1_append, splitOn1_append, splitOn1_no_sep '\n' _ hAnl,
    splitOn1_no_sep '\n' _ hBnl, eLines]
  rfl

theorem serialize_body (es : List SRTEntry) (hne : es ≠ []) (hG : ∀ e ∈ es, GoodEntry e) :
    ∃ Y, entries_to_srt es = Y ++ ['\n'] ∧ splitLines Y = goodLines es ∧ Y ≠ [] ∧
      (∀ c, Y.head? = some c → pyIsSpace c = false) ∧
      (∀ c, Y.getLast? = some c → pyIsSpace c = false) := by
  induction es with
  | nil => exact absurd rfl hne
  | cons e es2 ih =>
    have hGe := hG e (by simp)
    have hser : serializeEntry e =
        (intToStr e.index ++ '\n' :: ((e.start_time ++ sepArrow ++ e.end_time) ++ '\n' :: e.text))
          ++ ['\n'] := by
      rw [serializeEntry, show entryOut e = e.text from by rw [entryOut, if_pos hGe.1]]
      rfl
    have hsplitB := entry_body_split e hGe
    have hBne : (intToStr e.index ++ '\n' ::
        ((e.start_time ++ sepArrow ++ e.end_time) ++ '\n' :: e.text)) ≠ [] := by
      intro hc
      cases hI : intToStr e.index with
      | nil => exact absurd hI (intToStr_ne_nil e.index)
      | cons c cs => rw [hI] at hc; exact List.noConfusion hc
    have hBhead : ∀ c, (intToStr e.index ++ '\n' ::
        ((e.start_time ++ sepArrow ++ e.end_time) ++ '\n' :: e.text)).head? = some c →
        pyIsSpace c = false := by
      intro c hc
      rw [head?_append_ne _ _ (intToStr_ne_nil e.index)] at hc
      exact intToStr_not_ws e.index c (List.mem_of_mem_head? (Option.mem_def.mpr hc))
    have hBlast : ∀ c, (intToStr e.index ++ '\n' ::
        ((e.start_time ++ sepArrow ++ e.end_time) ++ '\n' :: e.text)).getLast? = some c →
        pyIsSpace c = false := by
      intro c hc
      rw [getLast?_append_ne _ _ (by simp)] at hc
      rw [show ('\n' :: ((e.start_time ++ sepArrow ++ e.end_time) ++ '\n' :: e.text)) =
        ['\n'] ++ ((e.start_time ++ sepArrow ++ e.end_time) ++ '\n' :: e.text) from rfl] at hc
      rw [getLast?_append_ne _ _ (by simp)] at hc
      rw [getLast?_append_ne _ _ (by simp)] at hc
      rw [show ('\n' :: e.text) = ['\n'] ++ e.text from rfl] at hc
      rw [getLast?_append_ne _ _ hGe.2.2.1] at hc
      have hrs : rstripWs e.text = e.text := rstrip_of_pystrip_self e.text hGe.2.1
      apply getLast?_rstrip_not_ws e.text
      rw [hrs]
      exact hc
    cases es2 with
    | nil =>
      refine ⟨intToStr e.index ++ '\n' ::
        ((e.start_time ++ sepArrow ++ e.end_time) ++ '\n' :: e.text),
        ?_, ?_, hBne, hBhead, hBlast⟩
      · rw [show entries_to_srt [e] = serializeEntry e from rfl, hser]
      · rw [hsplitB]
        rfl
    | cons e2 es3 =>
      obtain ⟨Y2, hY1, hY2, hY3, hY4, hY5⟩ := ih (by simp) (fun x hx => hG x (by simp [hx]))
      refine ⟨(intToStr e.index ++ '\n' ::
        ((e.start_time ++ sepArrow ++ e.end_time) ++ '\n' :: e.text)) ++ '\n' :: '\n' :: Y2,
        ?_, ?_, ?_, ?_, ?_⟩
      · show joinLines ((e :: e2 :: es3).map serializeEntry) = _
        rw [List.map_cons, joinLines_cons _ _ (by simp),
          show joinLines ((e2 :: es3).map serializeEntry) = entries_to_srt (e2 :: es3) from rfl,
          hY1, hser]
        simp
      · have hsB2 := hsplitB
        have hY2b := hY2
        unfold splitLines at hsB2 hY2b
        unfold splitLines
        rw [splitOn1_append, splitOn1_cons_sep, hsB2, hY2b,
          goodLines_cons e (e2 :: es3) (by simp)]
      · intro hc
        cases hI : intToStr e.index with
        | nil => exact absurd hI (intToStr_ne_nil e.index)
        | cons c cs => rw [hI] at hc; exact List.noConfusion hc
      · intro c hc
        rw [head?_append_ne _ _ hBne] at hc
        exact hBhead c hc
      · intro c hc
        rw [getLast?_append_ne _ _ (by simp)] at hc
        rw [show ('\n' :: '\n' :: Y2) = ['\n', '\n'] ++ Y2 from rfl] at hc
        rw [getLast?_append_ne _ _ hY3] at hc
        exact hY5 c hc

/-! ## C3: the serialize/parse round trip -/

theorem parseBlock_eLines (e : SRTEntry) (hG : GoodEntry e)
    (htail : ∀ s₀, e.start_time ≠ s₀ ++ arrTail) : parseBlock (eLines e) = some e := by
  have hprops := eLines_props e hG
  obtain ⟨hTr, hTs, hTne, hTl, hSs, hSn, hSo, hEs, hEn, hEo⟩ := hG
  have hjoin : joinLines (eLines e) = intToStr e.index ++ '\n' ::
      ((e.start_time ++ sepArrow ++ e.end_time) ++ '\n' :: e.text) := by
    rw [eLines, joinLines_cons _ _ (by simp),
      joinLines_cons _ _ (show splitLines e.text ≠ [] from splitOn1_ne_nil '\n' e.text),
      joinLines_splitLines]
  have hstrip : pystrip (joinLines (eLines e)) = joinLines (eLines e) := by
    apply pystrip_eq_self
    · intro c hc
      rw [hjoin, head?_append_ne _ _ (intToStr_ne_nil e.index)] at hc
      exact intToStr_not_ws e.index c (List.mem_of_mem_head? (Option.mem_def.mpr hc))
    · intro c hc
      rw [hjoin, getLast?_append_ne _ _ (by simp)] at hc
      rw [show ('\n' :: ((e.start_time ++ sepArrow ++ e.end_time) ++ '\n' :: e.text)) =
        ['\n'] ++ ((e.start_time ++ sepArrow ++ e.end_time) ++ '\n' :: e.text) from rfl] at hc
      rw [getLast?_append_ne _ _ (by simp)] at hc
      rw [getLast?_append_ne _ _ (by simp)] at hc
      rw [show ('\n' :: e.text) = ['\n'] ++ e.text from rfl] at hc
      rw [getLast?_append_ne _ _ hTne] at hc
      have hrs : rstripWs e.text = e.text := rstrip_of_pystrip_self e.text hTs
      apply getLast?_rstrip_not_ws e.text
      rw [hrs]
      exact hc
  have hscr : splitLines (pystrip (joinLines (eLines e))) = eLines e := by
    rw [hstrip]
    exact splitLines_joinLines (eLines e) (by rw [eLines]; simp)
      (fun l hl => (hprops l hl).2)
  cases hsl : splitLines e.text with
  | nil => exact absurd hsl (splitOn1_ne_nil '\n' e.text)
  | cons t0 ts =>
    have hscr2 : splitLines (pystrip (joinLines (eLines e))) =
        intToStr e.index :: (e.start_time ++ sepArrow ++ e.end_time) :: t0 :: ts := by
      rw [hscr, eLines, hsl]
    rw [parseBlock_eq (eLines e) _ _ t0 ts hscr2, pyInt_intToStr]
    show (match splitArrow (e.start_time ++ sepArrow ++ e.end_time) with
      | [st, en] => some (mkEntry e.index (pystrip st) (pystrip en) (joinLines (t0 :: ts)))
      | _ => none) = some e
    rw [splitArrow_canonical e.start_time e.end_time hSo htail hEo]
    show some (mkEntry e.index (pystrip e.start_time) (pystrip e.end_time)
      (joinLines (t0 :: ts))) = some e
    rw [hSs, hEs,
      show joinLines (t0 :: ts) = e.text from by rw [← hsl]; exact joinLines_splitLines e.text,
      mkEntry, hTs, ← hTr]

theorem filterMap_eLines (es : List SRTEntry)
    (h : ∀ e ∈ es, parseBlock (eLines e) = some e) :
    (es.map eLines).filterMap parseBlock = es := by
  induction es with
  | nil => rfl
  | cons e es2 ih =>
    rw [List.map_cons, List.filterMap_cons, h e (by simp),
      ih (fun x hx => h x (by simp [hx]))]

theorem parse_serialize_id (es : List SRTEntry) (hG : ∀ e ∈ es, GoodEntry e)
    (hT : ∀ e ∈ es, ∀ s₀, e.start_time ≠ s₀ ++ arrTail) :
    parse_srt (entries_to_srt es) = es := by
  cases es with
  | nil => rfl
  | cons e0 es0 =>
    obtain ⟨Y, hY1, hY2, hY3, hY4, hY5⟩ := serialize_body (e0 :: es0) (by simp) hG
    rw [parse_srt, hY1]
    have hps : pystrip (Y ++ ['\n']) = Y := by
      unfold pystrip
      rw [show lstripWs (Y ++ ['\n']) = Y ++ ['\n'] from lstrip_eq_self _ (by
        intro c hc
        rw [head?_append_ne _ _ hY3] at hc
        exact hY4 c hc)]
      rw [rstrip_snoc_ws Y '\n' (by decide), rstrip_eq_self Y hY5]
    rw [hps, hY2, groupBlocks_goodLines _ hG,
      filterMap_eLines _ (fun x hx => parseBlock_eLines x (hG x hx) (hT x hx))]

/-- C3: an entry sequence produced by `parse_srt` (whose entries are all
untranslated) serializes through `entries_to_srt` to a document that parses
back to exactly the same entries, so re-serializing reproduces the document
character for character — provided, as an amendment, that no parsed entry's
`start_time` ends with the four characters `" -->"` (`arrTail`).  The parser can
produce such a start time (a tab between `" -->"` and the real separator
survives the split and is then stripped), and on re-parse the serialized time
line splits at the earlier occurrence, so the block is dropped:
`roundtrip_counterexample` below exhibits this failure of the unamended claim. -/
theorem parse_serialize_roundtrip (content : List Char)
    (hnoarr : ∀ e ∈ parse_srt content, arrTail.isSuffixOf e.start_time = false) :
    parse_srt (entries_to_srt (parse_srt content)) = parse_srt content ∧
    entries_to_srt (parse_srt (entries_to_srt (parse_srt content))) =
      entries_to_srt (parse_srt content) := by
  have h := parse_serialize_id (parse_srt content) (parse_good content) (by
    intro e he s₀ hs
    have hb := hnoarr e he
    have ht : arrTail.isSuffixOf e.start_time = true := by
      rw [List.isSuffixOf_iff_suffix]
      exact ⟨s₀, hs.symm⟩
    rw [hb] at ht
    exact Bool.noConfusion ht)
  exact ⟨h, by rw [h]⟩

/-- C3 counterexample: for this document the parsed entry is untranslated, yet
serializing, re-parsing and re-serializing does not reproduce the serialized
document — the accepted start time `"x  -->"` ends in `" -->"`, and the
re-parse splits its time line into three parts and skips the block. -/
theorem roundtrip_counterexample :
    (∀ e ∈ parse_srt ceContent, e.translated_text = []) ∧
    entries_to_srt (parse_srt (entries_to_srt (parse_srt ceContent))) ≠
      entries_to_srt (parse_srt ceContent) := by
  constructor
  · decide
  · decide

/-- Witness: on a well-formed two-entry document the hypothesis of
`parse_serialize_roundtrip` holds and the round trip reproduces the document. -/
theorem parse_serialize_roundtrip_witness :
    (∀ e ∈ parse_srt demoSRT, arrTail.isSuffixOf e.start_time = false) ∧
    entries_to_srt (parse_srt (entries_to_srt (parse_srt demoSRT))) =
      entries_to_srt (parse_srt demoSRT) :=
  ⟨by decide, (parse_serialize_roundtrip demoSRT (by decide)).2⟩
